import Mathlib

/-!
Verification of the jsonpb well-known-type marshaler.

Go strings are embedded as `List Char` (the sources only manipulate ASCII),
machine integers as `Int`/`Nat`, and fallible marshal routines as `Except`.
The JSON writer of the source is embedded at the granularity of its tokens
(`Tok`): each marshal routine emits the token sequence the Go encoder would
write.  Decoders, which are not part of the given sources, are modelled from
the specification where a claim needs them.
-/

namespace Jsonpb

/-! ## ASCII character helpers, mirroring the predicates of the source. -/

/-- Embeds isASCIILower of the source: a lower-case ASCII letter. -/
def isASCIILower (c : Char) : Bool := 97 ≤ c.toNat && c.toNat ≤ 122

/-- Embeds isASCIIUpper of the source: an upper-case ASCII letter. -/
def isASCIIUpper (c : Char) : Bool := 65 ≤ c.toNat && c.toNat ≤ 90

/-- Embeds isASCIIDigit of the source: an ASCII digit. -/
def isASCIIDigit (c : Char) : Bool := 48 ≤ c.toNat && c.toNat ≤ 57

/-- Converts a lower-case ASCII letter to upper case, as the source's
subtraction of the byte distance between the cases. -/
def upChar (c : Char) : Char := Char.ofNat (c.toNat - 32)

/-- Converts an upper-case ASCII letter to lower case. -/
def lowChar (c : Char) : Char := Char.ofNat (c.toNat + 32)

theorem char_toNat_ofNat (n : Nat) (h : n < 55296) : (Char.ofNat n).toNat = n := by
  have hv : n.isValidChar := Or.inl (by omega)
  simp [Char.ofNat, hv, Char.toNat, Char.ofNatAux]
  rfl

theorem upChar_toNat (c : Char) (h : isASCIILower c = true) :
    (upChar c).toNat = c.toNat - 32 := by
  simp only [isASCIILower, Bool.and_eq_true, decide_eq_true_eq] at h
  exact char_toNat_ofNat _ (by omega)

theorem lowChar_toNat (c : Char) (h : isASCIIUpper c = true) :
    (lowChar c).toNat = c.toNat + 32 := by
  simp only [isASCIIUpper, Bool.and_eq_true, decide_eq_true_eq] at h
  exact char_toNat_ofNat _ (by omega)

/-! ## Decimal digit strings: the embedding of the Sprintf verbs used by the
source, a zero padded field of fixed width and a plain decimal field. -/

/-- Decimal digit character for a digit value; values above nine do not occur
in the uses below. -/
def digitChar (n : Nat) : Char :=
  match n with
  | 0 => '0' | 1 => '1' | 2 => '2' | 3 => '3' | 4 => '4'
  | 5 => '5' | 6 => '6' | 7 => '7' | 8 => '8' | _ => '9'

/-- Zero-padded decimal rendering of width `w`: the low `w` digits of `n`, as
the Sprintf verb with a zero flag and width renders a value below `10 ^ w`. -/
def padNat : Nat → Nat → List Char
  | 0, _ => []
  | w + 1, n => padNat w (n / 10) ++ [digitChar (n % 10)]

/-- Fuel-driven core of the plain decimal rendering. -/
def natToCharsGo : Nat → Nat → List Char
  | 0, _ => []
  | fuel + 1, n =>
    if n < 10 then [digitChar n] else natToCharsGo fuel (n / 10) ++ [digitChar (n % 10)]

/-- Plain decimal rendering of a natural number, as the Sprintf decimal verb
renders a non-negative value. -/
def natToChars (n : Nat) : List Char := natToCharsGo (n + 1) n

/-- Decimal rendering of an integer: a minus sign before the magnitude for
negative values. -/
def intToChars (v : Int) : List Char :=
  if v < 0 then '-' :: natToChars v.natAbs else natToChars v.natAbs

theorem digitChar_isDigit (n : Nat) : isASCIIDigit (digitChar n) = true := by
  unfold digitChar
  split <;> decide

theorem digitChar_eq_zero_iff (n : Nat) (h : n < 10) : digitChar n = '0' ↔ n = 0 := by
  interval_cases n <;> simp [digitChar]

theorem padNat_length (w n : Nat) : (padNat w n).length = w := by
  induction w generalizing n with
  | zero => rfl
  | succ w ih => simp [padNat, ih]

theorem padNat_all_digits (w n : Nat) : (padNat w n).all isASCIIDigit = true := by
  induction w generalizing n with
  | zero => rfl
  | succ w ih => simp [padNat, ih, digitChar_isDigit]

theorem natToCharsGo_fuel (fuel n : Nat) (h : n < fuel) :
    natToCharsGo fuel n = natToChars n := by
  induction fuel using Nat.strong_induction_on generalizing n with
  | _ fuel ih =>
    match fuel, h with
    | fuel + 1, h =>
      unfold natToChars
      by_cases h10 : n < 10
      · simp [natToCharsGo, h10]
      · have h1 : n / 10 < fuel := by omega
        have h2 : n / 10 < n := by omega
        simp only [natToCharsGo, if_neg h10]
        rw [ih fuel (by omega) _ h1, ih n (by omega) _ h2]

theorem natToChars_eq (n : Nat) :
    natToChars n =
      if n < 10 then [digitChar n] else natToChars (n / 10) ++ [digitChar (n % 10)] := by
  have hstep : natToCharsGo (n + 1) n =
      if n < 10 then [digitChar n] else natToCharsGo n (n / 10) ++ [digitChar (n % 10)] := rfl
  by_cases h10 : n < 10
  · simp [natToChars, hstep, h10]
  · have h2 : n / 10 < n := by omega
    rw [natToChars, hstep, if_neg h10, if_neg h10, natToCharsGo_fuel n (n / 10) h2]

theorem natToChars_ne_nil (n : Nat) : natToChars n ≠ [] := by
  rw [natToChars_eq]
  split <;> simp

theorem natToChars_all_digits (n : Nat) : (natToChars n).all isASCIIDigit = true := by
  induction n using Nat.strong_induction_on with
  | _ n ih =>
    rw [natToChars_eq]
    by_cases h10 : n < 10
    · simp [h10, digitChar_isDigit]
    · have := ih (n / 10) (by omega)
      simp [h10, this, digitChar_isDigit]

theorem padNat_split (j k n : Nat) :
    padNat (j + k) n = padNat j (n / 10 ^ k) ++ padNat k n := by
  induction k generalizing n with
  | zero => simp [padNat]
  | succ k ih =>
    have : j + (k + 1) = (j + k) + 1 := by omega
    rw [this]
    show padNat (j + k) (n / 10) ++ [digitChar (n % 10)] = _
    rw [ih (n / 10), Nat.div_div_eq_div_mul, List.append_assoc]
    have hp : 10 * 10 ^ k = 10 ^ (k + 1) := by ring
    rw [hp]
    rfl

theorem padNat_mod (k n : Nat) : padNat k (n % 10 ^ k) = padNat k n := by
  induction k generalizing n with
  | zero => rfl
  | succ k ih =>
    have hmod : n % 10 ^ (k + 1) % 10 = n % 10 := by
      apply Nat.mod_mod_of_dvd
      exact Dvd.intro_left (10 ^ k) (by ring)
    have hdecomp : n % (10 * 10 ^ k) = n % 10 + 10 * (n / 10 % 10 ^ k) := Nat.mod_mul
    have hpow : 10 ^ (k + 1) = 10 * 10 ^ k := by ring
    have hdiv : n % 10 ^ (k + 1) / 10 = n / 10 % 10 ^ k := by
      rw [hpow, hdecomp, Nat.add_mul_div_left _ _ (by norm_num)]
      have : n % 10 / 10 = 0 := Nat.div_eq_of_lt (Nat.mod_lt _ (by norm_num))
      omega
    show padNat k (n % 10 ^ (k + 1) / 10) ++ [digitChar (n % 10 ^ (k + 1) % 10)] = _
    rw [hmod, hdiv, ih (n / 10)]
    rfl

theorem padNat_replicate_iff (k n : Nat) :
    padNat k n = List.replicate k '0' ↔ n % 10 ^ k = 0 := by
  induction k generalizing n with
  | zero => simp [padNat, Nat.mod_one]
  | succ k ih =>
    rw [List.replicate_succ']
    show padNat k (n / 10) ++ [digitChar (n % 10)] = _ ↔ _
    have hlen : (padNat k (n / 10)).length = (List.replicate k '0').length := by
      simp [padNat_length]
    have hkey : n % 10 ^ (k + 1) = n % 10 + 10 * (n / 10 % 10 ^ k) := by
      have hpow : (10 : Nat) ^ (k + 1) = 10 * 10 ^ k := by ring
      rw [hpow]
      exact Nat.mod_mul
    constructor
    · intro h
      obtain ⟨h1, h2⟩ := List.append_inj h hlen
      have hd : n % 10 = 0 := by
        exact (digitChar_eq_zero_iff (n % 10) (Nat.mod_lt _ (by norm_num))).mp
          (by simpa using h2)
      have hq : n / 10 % 10 ^ k = 0 := (ih (n / 10)).mp h1
      omega
    · intro h
      have hd : n % 10 = 0 := by omega
      have hq : n / 10 % 10 ^ k = 0 := by omega
      rw [(ih (n / 10)).mpr hq, hd]
      rfl

/-! ## The suffix trimming of the source, on character lists. -/

/-- Embeds the TrimSuffix of the standard strings package: remove `suf` from
the end of `l` when `l` ends with it, otherwise return `l` unchanged. -/
def trimSuffix (l suf : List Char) : List Char :=
  if suf = l.drop (l.length - suf.length) then l.take (l.length - suf.length) else l

theorem trimSuffix_append_eq (u suf : List Char) : trimSuffix (u ++ suf) suf = u := by
  unfold trimSuffix
  have hl : (u ++ suf).length - suf.length = u.length := by simp
  rw [hl, List.drop_left, List.take_left, if_pos rfl]

theorem trimSuffix_append_ne (u v suf : List Char) (hl : v.length = suf.length)
    (hne : v ≠ suf) : trimSuffix (u ++ v) suf = u ++ v := by
  unfold trimSuffix
  have hlen : (u ++ v).length - suf.length = u.length := by simp [hl]
  rw [hlen, List.drop_left]
  exact if_neg (fun h => hne h.symm)

theorem padNat_succ_head (w n : Nat) :
    padNat (w + 1) n = digitChar (n / 10 ^ w % 10) :: padNat w n := by
  have h : padNat (1 + w) n = padNat 1 (n / 10 ^ w) ++ padNat w n := padNat_split 1 w n
  have h1 : (1 : Nat) + w = w + 1 := by omega
  rw [h1] at h
  rw [h]
  rfl

theorem trim_dot_unchanged (a : List Char) (j n : Nat) :
    trimSuffix (a ++ '.' :: padNat (j + 4) n) ['.', '0', '0', '0']
      = a ++ '.' :: padNat (j + 4) n := by
  have hsplit : padNat (j + 4) n = padNat j (n / 10 ^ 4) ++ padNat 4 n := padNat_split j 4 n
  have hassoc : a ++ '.' :: padNat (j + 4) n
      = (a ++ '.' :: padNat j (n / 10 ^ 4)) ++ padNat 4 n := by
    rw [hsplit]; simp
  rw [hassoc]
  apply trimSuffix_append_ne
  · simp [padNat_length]
  · intro h
    have hh : padNat 4 n = digitChar (n / 10 ^ 3 % 10) :: padNat 3 n := padNat_succ_head 3 n
    rw [hh] at h
    have hd : digitChar (n / 10 ^ 3 % 10) = '.' := by
      exact List.head_eq_of_cons_eq h
    have := digitChar_isDigit (n / 10 ^ 3 % 10)
    rw [hd] at this
    simp [isASCIIDigit] at this

theorem trim_000_fire (a : List Char) (j n : Nat) (h : n % 1000 = 0) :
    trimSuffix (a ++ '.' :: padNat (j + 3) n) ['0', '0', '0']
      = a ++ '.' :: padNat j (n / 1000) := by
  have hsplit : padNat (j + 3) n = padNat j (n / 10 ^ 3) ++ padNat 3 n := padNat_split j 3 n
  have h000 : padNat 3 n = ['0', '0', '0'] := by
    have h1 : padNat 3 (n % 10 ^ 3) = padNat 3 n := padNat_mod 3 n
    have hz : n % 10 ^ 3 = 0 := by
      rw [show (10 : Nat) ^ 3 = 1000 from by norm_num]
      exact h
    rw [hz] at h1
    rw [← h1]
    rfl
  have hassoc : a ++ '.' :: padNat (j + 3) n
      = (a ++ '.' :: padNat j (n / 10 ^ 3)) ++ ['0', '0', '0'] := by
    rw [hsplit, h000]; simp
  rw [hassoc, trimSuffix_append_eq]
  norm_num

theorem trim_000_unchanged (a : List Char) (j n : Nat) (h : n % 1000 ≠ 0) :
    trimSuffix (a ++ '.' :: padNat (j + 3) n) ['0', '0', '0']
      = a ++ '.' :: padNat (j + 3) n := by
  have hsplit : padNat (j + 3) n = padNat j (n / 10 ^ 3) ++ padNat 3 n := padNat_split j 3 n
  have hassoc : a ++ '.' :: padNat (j + 3) n
      = (a ++ '.' :: padNat j (n / 10 ^ 3)) ++ padNat 3 n := by
    rw [hsplit]; simp
  rw [hassoc]
  apply trimSuffix_append_ne
  · simp [padNat_length]
  · intro hc
    have hz := (padNat_replicate_iff 3 n).mp (by rw [hc]; rfl)
    rw [show (10 : Nat) ^ 3 = 1000 from by norm_num] at hz
    omega

/-- The fractional part the two fixed trimming steps leave behind: empty for a
zero nanosecond field, otherwise three, six or nine digits. -/
def fracOf (n : Nat) : List Char :=
  if n = 0 then []
  else if n % 1000000 = 0 then '.' :: padNat 3 (n / 1000000)
  else if n % 1000 = 0 then '.' :: padNat 6 (n / 1000)
  else '.' :: padNat 9 n

theorem trimTriple (a : List Char) (n : Nat) (hn : n < 1000000000) :
    trimSuffix (trimSuffix (trimSuffix (a ++ '.' :: padNat 9 n)
        ['0', '0', '0']) ['0', '0', '0']) ['.', '0', '0', '0'] = a ++ fracOf n := by
  by_cases h3 : n % 1000 = 0
  · have t1 : trimSuffix (a ++ '.' :: padNat 9 n) ['0', '0', '0']
        = a ++ '.' :: padNat 6 (n / 1000) := trim_000_fire a 6 n h3
    by_cases h6 : n % 1000000 = 0
    · have hm : n / 1000 % 1000 = 0 := by omega
      have t2 : trimSuffix (a ++ '.' :: padNat 6 (n / 1000)) ['0', '0', '0']
          = a ++ '.' :: padNat 3 (n / 1000 / 1000) := trim_000_fire a 3 (n / 1000) hm
      have hdd : n / 1000 / 1000 = n / 1000000 := by
        rw [Nat.div_div_eq_div_mul]
      by_cases h0 : n = 0
      · subst h0
        rw [t1, t2]
        show trimSuffix (a ++ ['.', '0', '0', '0']) ['.', '0', '0', '0'] = a ++ fracOf 0
        rw [trimSuffix_append_eq]
        simp [fracOf]
      · have hmz : n / 1000000 ≠ 0 := by omega
        have t3 : trimSuffix (a ++ '.' :: padNat 3 (n / 1000000)) ['.', '0', '0', '0']
            = a ++ '.' :: padNat 3 (n / 1000000) := by
          apply trimSuffix_append_ne
          · simp [padNat_length]
          · intro hc
            have hztail : padNat 3 (n / 1000000) = ['0', '0', '0'] :=
              List.tail_eq_of_cons_eq hc
            have hz := (padNat_replicate_iff 3 (n / 1000000)).mp (by rw [hztail]; rfl)
            rw [show (10 : Nat) ^ 3 = 1000 from by norm_num] at hz
            have hlt : n / 1000000 < 1000 := by omega
            omega
        rw [t1, t2, hdd, t3, fracOf, if_neg h0, if_pos h6]
    · have hm : n / 1000 % 1000 ≠ 0 := by omega
      have t2 : trimSuffix (a ++ '.' :: padNat 6 (n / 1000)) ['0', '0', '0']
          = a ++ '.' :: padNat 6 (n / 1000) := trim_000_unchanged a 3 (n / 1000) hm
      have t3 : trimSuffix (a ++ '.' :: padNat 6 (n / 1000)) ['.', '0', '0', '0']
          = a ++ '.' :: padNat 6 (n / 1000) := trim_dot_unchanged a 2 (n / 1000)
      have h0 : n ≠ 0 := by omega
      rw [t1, t2, t3, fracOf, if_neg h0, if_neg h6, if_pos h3]
  · have t1 : trimSuffix (a ++ '.' :: padNat 9 n) ['0', '0', '0']
        = a ++ '.' :: padNat 9 n := trim_000_unchanged a 6 n h3
    have t3 : trimSuffix (a ++ '.' :: padNat 9 n) ['.', '0', '0', '0']
        = a ++ '.' :: padNat 9 n := trim_dot_unchanged a 5 n
    have h0 : n ≠ 0 := by omega
    have h6 : ¬n % 1000000 = 0 := by omega
    rw [t1, t1, t3, fracOf, if_neg h0, if_neg h6, if_neg h3]

/-! ## JSON tokens: the writer interface the marshal routines emit through. -/

/-- A Go float64 as far as the sources inspect it: the NaN and infinity tests
are explicit, every other value is kept abstract together with its decimal
rendering. -/
inductive GoFloat where
  | nan
  | posInf
  | negInf
  | finite (r : List Char)
deriving DecidableEq

/-- One token of the JSON writer used by the encoder: object and array
brackets, member names, strings, numbers, booleans and null. -/
inductive Tok where
  | objStart
  | objEnd
  | arrStart
  | arrEnd
  | name (k : List Char)
  | str (s : List Char)
  | num (v : GoFloat)
  | intNum (v : Int)
  | boolTok (b : Bool)
  | nullTok
deriving DecidableEq

/-- True exactly on the error case of an Except value. -/
def isErr {ε α : Type} (e : Except ε α) : Bool :=
  match e with
  | .error _ => true
  | .ok _ => false

/-! ## Duration marshaling, embedding marshalDuration of the source. -/

/-- Errors of the duration marshaler, carrying the offending value as the
formatted Go error message does. -/
inductive DurationError where
  | secondsOutOfRange (secs : Int)
  | nanosOutOfRange (nanos : Int)
  | signMismatch
deriving DecidableEq

def maxSecondsInDuration : Int := 315576000000

def secondsInNanos : Int := 999999999

/-- Embeds marshalDuration: validate ranges and sign consistency, factor the
sign out, format seconds and nine zero-padded nanosecond digits, trim the
fraction in the two fixed steps of the source, and emit one JSON string
token with the trailing unit letter. -/
def marshalDuration (secs nanos : Int) : Except DurationError (List Tok) :=
  if secs < -maxSecondsInDuration ∨ secs > maxSecondsInDuration then
    .error (.secondsOutOfRange secs)
  else if nanos < -secondsInNanos ∨ nanos > secondsInNanos then
    .error (.nanosOutOfRange nanos)
  else if (secs > 0 ∧ nanos < 0) ∨ (secs < 0 ∧ nanos > 0) then
    .error .signMismatch
  else
    let sign : List Char := if secs < 0 ∨ nanos < 0 then ['-'] else []
    let s : Nat := secs.natAbs
    let n : Nat := nanos.natAbs
    let x := (sign ++ natToChars s) ++ '.' :: padNat 9 n
    let x := trimSuffix x ['0', '0', '0']
    let x := trimSuffix x ['0', '0', '0']
    let x := trimSuffix x ['.', '0', '0', '0']
    .ok [Tok.str (x ++ ['s'])]

theorem marshalDuration_ok (secs nanos : Int)
    (hs : -315576000000 ≤ secs ∧ secs ≤ 315576000000)
    (hn : -999999999 ≤ nanos ∧ nanos ≤ 999999999)
    (hsign : ¬((0 < secs ∧ nanos < 0) ∨ (secs < 0 ∧ 0 < nanos))) :
    marshalDuration secs nanos = .ok [Tok.str
      (((if secs < 0 ∨ nanos < 0 then ['-'] else []) ++ natToChars secs.natAbs)
        ++ fracOf nanos.natAbs ++ ['s'])] := by
  have hnlt : nanos.natAbs < 1000000000 := by omega
  unfold marshalDuration
  rw [if_neg (by unfold maxSecondsInDuration; omega),
    if_neg (by unfold secondsInNanos; omega),
    if_neg (by omega)]
  show Except.ok [Tok.str (trimSuffix (trimSuffix (trimSuffix
      (((if secs < 0 ∨ nanos < 0 then ['-'] else []) ++ natToChars secs.natAbs)
        ++ '.' :: padNat 9 nanos.natAbs) ['0', '0', '0']) ['0', '0', '0'])
      ['.', '0', '0', '0'] ++ ['s'])] = _
  rw [trimTriple _ _ hnlt]

/-- Shape of the fractional part the trimming leaves: nothing, or a dot
followed by exactly three, six or nine digits. -/
def fracShape (frac : List Char) : Prop :=
  frac = [] ∨ ∃ dgs, frac = '.' :: dgs ∧ dgs.all isASCIIDigit = true ∧
    (dgs.length = 3 ∨ dgs.length = 6 ∨ dgs.length = 9)

theorem fracOf_shape (n : Nat) : fracShape (fracOf n) := by
  unfold fracOf fracShape
  split_ifs
  · exact Or.inl rfl
  · exact Or.inr ⟨_, rfl, padNat_all_digits 3 _, Or.inl (padNat_length 3 _)⟩
  · exact Or.inr ⟨_, rfl, padNat_all_digits 6 _, Or.inr (Or.inl (padNat_length 6 _))⟩
  · exact Or.inr ⟨_, rfl, padNat_all_digits 9 _, Or.inr (Or.inr (padNat_length 9 _))⟩

/-- Shape of a duration string as the specified regular expression demands:
an optional minus sign, a non-empty run of digits, a fractional part of
three, six or nine digits or none at all, and the unit letter. -/
def durShape (x : List Char) : Prop :=
  ∃ sign intp frac, (sign = [] ∨ sign = ['-']) ∧ intp ≠ [] ∧
    intp.all isASCIIDigit = true ∧ fracShape frac ∧ x = sign ++ intp ++ frac ++ ['s']

/-- C1: for every duration satisfying the declared invariants the encoder
succeeds and its output matches the duration regular expression: the two-step
trimming always leaves exactly zero, three, six or nine fractional digits and
never a partial or dangling fraction; moreover the three concrete examples
encode as stated. -/
theorem c1_duration_trimmed_shape (secs nanos : Int)
    (hs : -315576000000 ≤ secs ∧ secs ≤ 315576000000)
    (hn : -999999999 ≤ nanos ∧ nanos ≤ 999999999)
    (hsign : ¬((0 < secs ∧ nanos < 0) ∨ (secs < 0 ∧ 0 < nanos))) :
    (∃ x, marshalDuration secs nanos = Except.ok [Tok.str x] ∧ durShape x)
    ∧ marshalDuration 1 500000000 = Except.ok [Tok.str "1.500s".toList]
    ∧ marshalDuration 0 0 = Except.ok [Tok.str "0s".toList]
    ∧ marshalDuration (-1) (-500000000) = Except.ok [Tok.str "-1.500s".toList] := by
  refine ⟨⟨_, marshalDuration_ok secs nanos hs hn hsign, ?_⟩, rfl, rfl, rfl⟩
  refine ⟨if secs < 0 ∨ nanos < 0 then ['-'] else [], natToChars secs.natAbs, fracOf nanos.natAbs,
    ?_, natToChars_ne_nil _, natToChars_all_digits _, fracOf_shape _, by simp⟩
  split_ifs
  · exact Or.inr rfl
  · exact Or.inl rfl

theorem c1_duration_trimmed_shape_witness :
    ((-315576000000 ≤ (1 : Int) ∧ (1 : Int) ≤ 315576000000)
      ∧ (-999999999 ≤ (500000000 : Int) ∧ (500000000 : Int) ≤ 999999999)
      ∧ ¬((0 < (1 : Int) ∧ (500000000 : Int) < 0) ∨ ((1 : Int) < 0 ∧ 0 < (500000000 : Int))))
    ∧ ((∃ x, marshalDuration 1 500000000 = Except.ok [Tok.str x] ∧ durShape x)
      ∧ marshalDuration 1 500000000 = Except.ok [Tok.str "1.500s".toList]
      ∧ marshalDuration 0 0 = Except.ok [Tok.str "0s".toList]
      ∧ marshalDuration (-1) (-500000000) = Except.ok [Tok.str "-1.500s".toList]) :=
  ⟨⟨by decide, by decide, by decide⟩,
    c1_duration_trimmed_shape 1 500000000 (by decide) (by decide) (by decide)⟩

/-- C5: the duration encoder errs exactly on a seconds value out of range, a
nanos value out of range, or strictly conflicting signs; the two concrete
failures yield the stated errors, each naming the offending value. -/
theorem c5_duration_error_iff :
    (∀ secs nanos : Int, isErr (marshalDuration secs nanos) = true ↔
      (secs < -315576000000 ∨ 315576000000 < secs ∨ nanos < -999999999 ∨ 999999999 < nanos
        ∨ (0 < secs ∧ nanos < 0) ∨ (secs < 0 ∧ 0 < nanos)))
    ∧ marshalDuration 315576000001 0
        = Except.error (DurationError.secondsOutOfRange 315576000001)
    ∧ marshalDuration 1 (-1) = Except.error DurationError.signMismatch := by
  refine ⟨?_, rfl, rfl⟩
  intro secs nanos
  unfold marshalDuration maxSecondsInDuration secondsInNanos
  by_cases h1 : secs < -(315576000000 : Int) ∨ secs > 315576000000
  · rw [if_pos h1]
    exact iff_of_true rfl (by omega)
  · rw [if_neg h1]
    by_cases h2 : nanos < -(999999999 : Int) ∨ nanos > 999999999
    · rw [if_pos h2]
      exact iff_of_true rfl (by omega)
    · rw [if_neg h2]
      by_cases h3 : (secs > 0 ∧ nanos < 0) ∨ (secs < 0 ∧ nanos > 0)
      · rw [if_pos h3]
        exact iff_of_true rfl (by omega)
      · rw [if_neg h3]
        exact iff_of_false (fun h => Bool.false_ne_true h) (by omega)

/-! ## Identifier case conversion, embedding JSONCamelCase and JSONSnakeCase. -/

/-- State-passing core of JSONCamelCase: the flag records whether the previous
character was an underscore.  Underscores are never appended; a lower-case
letter directly after an underscore is upper-cased. -/
def jsonCamelAux : Bool → List Char → List Char
  | _, [] => []
  | wasU, c :: rest =>
    (if c ≠ '_' then [if wasU && isASCIILower c then upChar c else c] else [])
      ++ jsonCamelAux (c == '_') rest

/-- Embeds JSONCamelCase of the source. -/
def JSONCamelCase (s : List Char) : List Char := jsonCamelAux false s

/-- Embeds JSONSnakeCase of the source: insert an underscore before every
upper-case ASCII letter and lower-case it. -/
def JSONSnakeCase : List Char → List Char
  | [] => []
  | c :: rest => (if isASCIIUpper c then ['_', lowChar c] else [c]) ++ JSONSnakeCase rest

/-- Restatement of the camel conversion without the state flag, used as the
reference form for the amended claim: every underscore is dropped, and the
character after a dropped underscore is upper-cased exactly when it is a
lower-case ASCII letter. -/
def camelRef : List Char → List Char
  | [] => []
  | c :: rest =>
    if c = '_' then
      match rest with
      | [] => []
      | d :: rest2 => if isASCIILower d then upChar d :: camelRef rest2 else camelRef (d :: rest2)
    else c :: camelRef rest

theorem camelRef_cons_ne (c : Char) (rest : List Char) (hc : c ≠ '_') :
    camelRef (c :: rest) = c :: camelRef rest := by
  rw [camelRef.eq_def]
  simp [hc]

theorem camelRef_und_lower (d : Char) (rest2 : List Char) (hl : isASCIILower d = true) :
    camelRef ('_' :: d :: rest2) = upChar d :: camelRef rest2 := by
  rw [camelRef.eq_def]
  simp [hl]

theorem camelRef_und_other (d : Char) (rest2 : List Char) (hl : isASCIILower d = false) :
    camelRef ('_' :: d :: rest2) = camelRef (d :: rest2) := by
  rw [camelRef.eq_def]
  simp [hl]

theorem jsonCamelAux_spec (s : List Char) :
    jsonCamelAux false s = camelRef s ∧ jsonCamelAux true s = camelRef ('_' :: s) := by
  induction s with
  | nil => exact ⟨rfl, rfl⟩
  | cons c rest ih =>
    obtain ⟨ihF, ihT⟩ := ih
    by_cases hc : c = '_'
    · subst hc
      have h1 : jsonCamelAux false ('_' :: rest) = jsonCamelAux true rest := by
        simp [jsonCamelAux]
      have h2 : jsonCamelAux true ('_' :: rest) = jsonCamelAux true rest := by
        simp [jsonCamelAux]
      have h3 : camelRef ('_' :: '_' :: rest) = camelRef ('_' :: rest) :=
        camelRef_und_other '_' rest (by decide)
      exact ⟨by rw [h1, ihT], by rw [h2, ihT, ← h3]⟩
    · have hbeq : (c == '_') = false := by simp [hc]
      have h1 : jsonCamelAux false (c :: rest) = c :: jsonCamelAux false rest := by
        simp [jsonCamelAux, hc, hbeq]
      have h2 : camelRef (c :: rest) = c :: camelRef rest := camelRef_cons_ne c rest hc
      have h3 : jsonCamelAux true (c :: rest)
          = (if isASCIILower c then upChar c else c) :: jsonCamelAux false rest := by
        by_cases hl : isASCIILower c <;> simp [jsonCamelAux, hc, hbeq, hl]
      refine ⟨by rw [h1, h2, ihF], ?_⟩
      rw [h3]
      by_cases hl : isASCIILower c
      · rw [camelRef_und_lower c rest hl, if_pos hl, ihF]
      · rw [camelRef_und_other c rest (by simp [hl]), if_neg hl, h2, ihF]

theorem JSONCamelCase_eq_camelRef (s : List Char) : JSONCamelCase s = camelRef s :=
  (jsonCamelAux_spec s).1

theorem camelRef_no_underscore_aux :
    ∀ n (s : List Char), s.length ≤ n → '_' ∉ camelRef s := by
  intro n
  induction n with
  | zero =>
    intro s hs
    have : s = [] := List.length_eq_zero.mp (by omega)
    subst this
    simp [camelRef]
  | succ n ih =>
    intro s hs
    match s with
    | [] => simp [camelRef]
    | c :: rest =>
      by_cases hc : c = '_'
      · subst hc
        match rest with
        | [] => simp [camelRef]
        | d :: rest2 =>
          by_cases hl : isASCIILower d
          · have h2 : camelRef ('_' :: d :: rest2) = upChar d :: camelRef rest2 :=
              camelRef_und_lower d rest2 hl
            rw [h2]
            intro hmem
            rcases List.mem_cons.mp hmem with h | h
            · have hup := upChar_toNat d hl
              have hd : 97 ≤ d.toNat ∧ d.toNat ≤ 122 := by
                have := hl
                simp only [isASCIILower, Bool.and_eq_true, decide_eq_true_eq] at this
                exact this
              have : ('_' : Char).toNat = (upChar d).toNat := congrArg Char.toNat h
              simp only [hup] at this
              have h95 : ('_' : Char).toNat = 95 := by decide
              omega
            · have hlen : rest2.length ≤ n := by
                simp only [List.length_cons] at hs
                omega
              exact ih rest2 hlen h
          · have h2 : camelRef ('_' :: d :: rest2) = camelRef (d :: rest2) :=
              camelRef_und_other d rest2 (by simp [hl])
            rw [h2]
            have hlen : (d :: rest2).length ≤ n := by
              simp only [List.length_cons] at hs ⊢
              omega
            exact ih (d :: rest2) hlen
      · have h2 : camelRef (c :: rest) = c :: camelRef rest := camelRef_cons_ne c rest hc
        rw [h2]
        intro hmem
        rcases List.mem_cons.mp hmem with h | h
        · exact hc h.symm
        · have hlen : rest.length ≤ n := by
            simp only [List.length_cons] at hs
            omega
          exact ih rest hlen h

theorem camelRef_no_underscore (s : List Char) : '_' ∉ camelRef s :=
  camelRef_no_underscore_aux s.length s le_rfl

/-- C2 counterexample: on the input with a lone trailing underscore the camel
conversion drops the underscore, it is not preserved literally as the claim
states. -/
theorem c2_counterexample :
    JSONCamelCase "foo_".toList = "foo".toList
      ∧ JSONCamelCase "foo_".toList ≠ "foo_".toList := by
  exact ⟨by decide, by decide⟩

/-- C2 amended: the camel conversion drops every underscore, whether or not
the following character is a lower-case ASCII letter; only the upper-casing of
the following character is conditional on it being lower case.  The stateless
reference form captures this, and no underscore ever survives; the concrete
inputs show a trailing underscore, a non-lower follower and a digit follower
all being dropped. -/
theorem c2_camel_underscore_amended (s : List Char) :
    (JSONCamelCase s = camelRef s ∧ '_' ∉ JSONCamelCase s)
    ∧ JSONCamelCase "a_b".toList = "aB".toList
    ∧ JSONCamelCase "a_B".toList = "aB".toList
    ∧ JSONCamelCase "a_1".toList = "a1".toList
    ∧ JSONCamelCase "a_".toList = "a".toList := by
  refine ⟨⟨JSONCamelCase_eq_camelRef s, ?_⟩, by decide, by decide, by decide, by decide⟩
  rw [JSONCamelCase_eq_camelRef s]
  exact camelRef_no_underscore s

/-! ## Field mask marshaling, embedding marshalFieldMask of the source. -/

/-- First character class of a protobuf identifier segment. -/
def isIdentStart (c : Char) : Bool := isASCIILower c || isASCIIUpper c || c == '_'

/-- Later character class of a protobuf identifier segment. -/
def isIdentChar (c : Char) : Bool := isIdentStart c || isASCIIDigit c

/-- A syntactically valid identifier segment: non-empty, a letter or
underscore first, letters, digits or underscores after. -/
def validName (l : List Char) : Bool :=
  match l with
  | [] => false
  | c :: rest => isIdentStart c && rest.all isIdentChar

/-- Split on a separator character, as the strings package splits: an empty
input yields one empty segment, a separator always opens a new segment. -/
def splitOn (sep : Char) : List Char → List (List Char)
  | [] => [[]]
  | c :: rest =>
    match splitOn sep rest with
    | [] => [[c]]
    | h :: t => if c == sep then [] :: h :: t else (c :: h) :: t

/-- Embeds the full-name validity check the source delegates to the
reflection package: every dot-separated segment is a valid identifier. -/
def validFullName (l : List Char) : Bool := (splitOn '.' l).all validName

/-- Errors of the field mask marshaler, naming the offending path as the
formatted Go error message does. -/
inductive FieldMaskError where
  | invalidPath (p : List Char)
  | irreversiblePath (p : List Char)
deriving DecidableEq

/-- Loop body of marshalFieldMask: validate each path, check that the camel
conversion is reversible, and collect the converted paths. -/
def marshalFieldMaskAux : List (List Char) → Except FieldMaskError (List (List Char))
  | [] => .ok []
  | p :: rest =>
    if validFullName p = false then .error (.invalidPath p)
    else if JSONSnakeCase (JSONCamelCase p) ≠ p then .error (.irreversiblePath p)
    else (marshalFieldMaskAux rest).map (fun ps => JSONCamelCase p :: ps)

/-- Join with the comma separator, as the strings package joins. -/
def joinComma : List (List Char) → List Char
  | [] => []
  | [p] => p
  | p :: rest => p ++ ',' :: joinComma rest

/-- Embeds marshalFieldMask: convert and validate every path, then emit one
JSON string token holding the comma-joined camel paths. -/
def marshalFieldMask (paths : List (List Char)) : Except FieldMaskError (List Tok) :=
  (marshalFieldMaskAux paths).map (fun ps => [Tok.str (joinComma ps)])

/-- A path the field mask encoder accepts: syntactically valid and reversible
through the camel conversion. -/
def pathOk (p : List Char) : Prop :=
  validFullName p = true ∧ JSONSnakeCase (JSONCamelCase p) = p

theorem marshalFieldMaskAux_ok (paths : List (List Char)) (h : ∀ p ∈ paths, pathOk p) :
    marshalFieldMaskAux paths = .ok (paths.map JSONCamelCase) := by
  induction paths with
  | nil => rfl
  | cons q rest ih =>
    have hq : pathOk q := h q (List.mem_cons_self q rest)
    have hrest : ∀ p ∈ rest, pathOk p := fun p hp => h p (List.mem_cons_of_mem q hp)
    unfold marshalFieldMaskAux
    rw [if_neg (by simp [hq.1]), if_neg (by simp [hq.2]), ih hrest]
    rfl

theorem marshalFieldMaskAux_err (paths : List (List Char)) (h : ∃ p ∈ paths, ¬pathOk p) :
    ∃ p, p ∈ paths ∧ ¬pathOk p ∧
      (marshalFieldMaskAux paths = .error (.invalidPath p)
        ∨ marshalFieldMaskAux paths = .error (.irreversiblePath p)) := by
  induction paths with
  | nil => simp at h
  | cons q rest ih =>
    by_cases hq : pathOk q
    · have hrest : ∃ p ∈ rest, ¬pathOk p := by
        obtain ⟨p, hp, hnp⟩ := h
        rcases List.mem_cons.mp hp with rfl | hp2
        · exact absurd hq hnp
        · exact ⟨p, hp2, hnp⟩
      obtain ⟨p, hp, hnp, herr⟩ := ih hrest
      refine ⟨p, List.mem_cons_of_mem q hp, hnp, ?_⟩
      unfold marshalFieldMaskAux
      rw [if_neg (by simp [hq.1]), if_neg (by simp [hq.2])]
      rcases herr with he | he
      · exact Or.inl (by rw [he]; rfl)
      · exact Or.inr (by rw [he]; rfl)
    · refine ⟨q, List.mem_cons_self q rest, hq, ?_⟩
      by_cases hv : validFullName q = true
      · have hirr : JSONSnakeCase (JSONCamelCase q) ≠ q := by
          intro hr
          exact hq ⟨hv, hr⟩
        refine Or.inr ?_
        unfold marshalFieldMaskAux
        rw [if_neg (by simp [hv]), if_pos hirr]
      · refine Or.inl ?_
        unfold marshalFieldMaskAux
        rw [if_pos (by simpa using hv)]

/-- C4: field mask encoding emits the comma-joined camel conversions when
every path is syntactically valid and reversible, fails with an error naming
an offending path otherwise, accepts the single-path mask of the snake-case
example, and rejects the double-underscore path as irreversible. -/
theorem c4_fieldmask_encode :
    (∀ paths : List (List Char), (∀ p ∈ paths, pathOk p) →
      marshalFieldMask paths = Except.ok [Tok.str (joinComma (paths.map JSONCamelCase))])
    ∧ (∀ paths : List (List Char), (∃ p ∈ paths, ¬pathOk p) →
      ∃ p, p ∈ paths ∧ ¬pathOk p ∧
        (marshalFieldMask paths = Except.error (FieldMaskError.invalidPath p)
          ∨ marshalFieldMask paths = Except.error (FieldMaskError.irreversiblePath p)))
    ∧ marshalFieldMask ["foo_bar".toList] = Except.ok [Tok.str "fooBar".toList]
    ∧ marshalFieldMask ["foo__bar".toList]
        = Except.error (FieldMaskError.irreversiblePath "foo__bar".toList) := by
  refine ⟨?_, ?_, rfl, rfl⟩
  · intro paths h
    unfold marshalFieldMask
    rw [marshalFieldMaskAux_ok paths h]
    rfl
  · intro paths h
    obtain ⟨p, hp, hnp, herr⟩ := marshalFieldMaskAux_err paths h
    refine ⟨p, hp, hnp, ?_⟩
    unfold marshalFieldMask
    rcases herr with he | he
    · exact Or.inl (by rw [he]; rfl)
    · exact Or.inr (by rw [he]; rfl)

/-! ## Struct, ListValue and Value, embedding the oneof dispatch of
marshalKnownValue and the recursive map and list marshaling it reaches. -/

/-- Errors of the Value marshaler. -/
inductive ValueError where
  | oneofUnset
  | numericInvalid (f : GoFloat)
deriving DecidableEq

/-- One arm of the Value oneof.  Struct fields and list elements hold Value
messages again, each of which may in turn have no arm set, hence the nested
Option. -/
inductive VKind where
  | nullValue
  | numberValue (v : GoFloat)
  | stringValue (s : List Char)
  | boolValue (b : Bool)
  | structValue (fields : List (List Char × Option VKind))
  | listValue (vs : List (Option VKind))

mutual

/-- Embeds marshalKnownValue: fail when no oneof arm is set, reject NaN and
the infinities on the number arm, otherwise delegate to the singular
encoding of the set arm. -/
def marshalKnownValue : Option VKind → Except ValueError (List Tok)
  | none => .error .oneofUnset
  | some k =>
    match k with
    | .numberValue f =>
      if f = .nan ∨ f = .posInf ∨ f = .negInf then .error (.numericInvalid f)
      else marshalSingularVal (.numberValue f)
    | k2 => marshalSingularVal k2

/-- Embeds the singular encoding of one Value arm: null, number, string and
boolean are single tokens, Struct and ListValue recurse through the map and
repeated-field marshaling. -/
def marshalSingularVal : VKind → Except ValueError (List Tok)
  | .nullValue => .ok [Tok.nullTok]
  | .numberValue f => .ok [Tok.num f]
  | .stringValue s => .ok [Tok.str s]
  | .boolValue b => .ok [Tok.boolTok b]
  | .structValue fields => do
      let inner ← marshalFieldsV fields
      .ok (Tok.objStart :: (inner ++ [Tok.objEnd]))
  | .listValue vs => do
      let inner ← marshalElemsV vs
      .ok (Tok.arrStart :: (inner ++ [Tok.arrEnd]))

/-- Embeds the map marshaling of marshalStruct: a name token per entry
followed by the entry value marshaled as a Value message. -/
def marshalFieldsV : List (List Char × Option VKind) → Except ValueError (List Tok)
  | [] => .ok []
  | (key, v) :: rest => do
      let tv ← marshalKnownValue v
      let tr ← marshalFieldsV rest
      .ok (Tok.name key :: (tv ++ tr))

/-- Embeds the repeated-field marshaling of marshalListValue. -/
def marshalElemsV : List (Option VKind) → Except ValueError (List Tok)
  | [] => .ok []
  | v :: rest => do
      let tv ← marshalKnownValue v
      let tr ← marshalElemsV rest
      .ok (tv ++ tr)

end

/-- True on the number arm holding NaN or an infinity, the values the Value
marshaler rejects. -/
def numberArmInvalid : VKind → Bool
  | .numberValue .nan => true
  | .numberValue .posInf => true
  | .numberValue .negInf => true
  | _ => false

/-- C7: Value encoding fails with the oneof-unset error when no arm is set,
fails with the numeric-invalid error on a NaN or infinite number arm without
emitting anything, and otherwise delegates to the singular encoding of the
one set arm. -/
theorem c7_value_oneof_checks :
    (marshalKnownValue none = Except.error ValueError.oneofUnset)
    ∧ (∀ f : GoFloat, (f = GoFloat.nan ∨ f = GoFloat.posInf ∨ f = GoFloat.negInf) →
        marshalKnownValue (some (VKind.numberValue f))
          = Except.error (ValueError.numericInvalid f))
    ∧ (∀ k : VKind, numberArmInvalid k = false →
        marshalKnownValue (some k) = marshalSingularVal k) := by
  refine ⟨by simp [marshalKnownValue], ?_, ?_⟩
  · intro f hf
    simp [marshalKnownValue, hf]
  · intro k hk
    cases k with
    | numberValue f =>
      cases f <;> simp_all [marshalKnownValue, numberArmInvalid]
    | nullValue => simp [marshalKnownValue]
    | stringValue s => simp [marshalKnownValue]
    | boolValue b => simp [marshalKnownValue]
    | structValue fields => simp [marshalKnownValue]
    | listValue vs => simp [marshalKnownValue]

/-! ## Any marshaling, embedding marshalAny of the source.  The resolver,
the partial unmarshal of the payload and the encoding of the resolved inner
message are the injected collaborators of the specification; they are
abstracted as a collaborator record. -/

/-- The Any message: in proto3, presence of its two scalar fields is
non-emptiness. -/
structure AnyMsg where
  typeUrl : List Char
  value : List Nat
deriving DecidableEq

/-- What marshaling the resolved inner message produces: the custom encoding
of a well-known inner type, emitted under a value member, or the ordinary
field members of a generic inner type. -/
inductive AnyBody where
  | wk (toks : List Tok)
  | generic (fields : List Tok)
deriving DecidableEq

/-- The injected collaborators of the Any codec: resolve and marshal the
payload, classify a type URL as well-known, and re-serialize a decoded body
back to payload bytes. -/
structure AnyCodecCollab where
  marshalInner : List Char → List Nat → Except Unit AnyBody
  isWK : List Char → Bool
  decInner : List Char → AnyBody → Except Unit (List Nat)

/-- Errors of the Any marshaler. -/
inductive AnyError where
  | missingTypeUrl
  | unresolvable (url : List Char)
deriving DecidableEq

/-- The at-type member name of the Any object. -/
def atTypeName : List Char := "@type".toList

/-- The value member name used for a well-known inner type. -/
def valueFieldName : List Char := "value".toList

/-- Embeds marshalAny: an envelope with neither field set marshals to the
empty JSON object, a payload without a type URL is an error, and otherwise
the resolved inner message is emitted with the at-type member, either under
a value member or inline. -/
def marshalAny (C : AnyCodecCollab) (m : AnyMsg) : Except AnyError (List Tok) :=
  if m.typeUrl = [] then
    if m.value = [] then .ok [Tok.objStart, Tok.objEnd]
    else .error .missingTypeUrl
  else
    match C.marshalInner m.typeUrl m.value with
    | .error _ => .error (.unresolvable m.typeUrl)
    | .ok (.wk toks) =>
      .ok (Tok.objStart :: Tok.name atTypeName :: Tok.str m.typeUrl
        :: Tok.name valueFieldName :: (toks ++ [Tok.objEnd]))
    | .ok (.generic fields) =>
      .ok (Tok.objStart :: Tok.name atTypeName :: Tok.str m.typeUrl
        :: (fields ++ [Tok.objEnd]))

/-- A collaborator record that resolves nothing, for concrete instances. -/
def trivialCollab : AnyCodecCollab :=
  ⟨fun _ _ => .error (), fun _ => false, fun _ _ => .error ()⟩

/-- C6: when the type URL field of an Any is unset, the encoder emits exactly
the empty JSON object if the value field is unset too, and fails with the
missing-type-URL error, emitting nothing, if the value field is set. -/
theorem c6_any_empty_envelope (C : AnyCodecCollab) (m : AnyMsg) (h : m.typeUrl = []) :
    (m.value = [] → marshalAny C m = Except.ok [Tok.objStart, Tok.objEnd])
    ∧ (m.value ≠ [] → marshalAny C m = Except.error AnyError.missingTypeUrl) := by
  constructor <;> intro hv <;> simp [marshalAny, h, hv]

theorem c6_any_empty_envelope_witness :
    ((AnyMsg.mk [] [1]).typeUrl = [])
    ∧ (((AnyMsg.mk [] [1]).value = [] →
        marshalAny trivialCollab (AnyMsg.mk [] [1]) = Except.ok [Tok.objStart, Tok.objEnd])
      ∧ ((AnyMsg.mk [] [1]).value ≠ [] →
        marshalAny trivialCollab (AnyMsg.mk [] [1])
          = Except.error AnyError.missingTypeUrl)) :=
  ⟨rfl, c6_any_empty_envelope trivialCollab (AnyMsg.mk [] [1]) rfl⟩

/-! ## Proleptic Gregorian calendar conversion, the embedding of the UTC
formatting the source obtains from the standard time package. -/

/-- Year of era from day of era, for a 400-year era starting on the first of
March. -/
def yoeOf (doe : Nat) : Nat := (doe - doe / 1460 + doe / 36524 - doe / 146096) / 365

/-- First day of era of a year of era. -/
def dstart (yoe : Nat) : Nat := 365 * yoe + yoe / 4 - yoe / 100

/-- Day of year from day of era, March-based. -/
def doyOf (doe : Nat) : Nat := doe - dstart (yoeOf doe)

/-- March-based month index from day of year. -/
def mpOf (doy : Nat) : Nat := (5 * doy + 2) / 153

/-- Calendar date, as year, month and day, of a day count from the first of
January of year one. -/
def civilFromDays (n : Nat) : Nat × Nat × Nat :=
  let k := n + 306
  let era := k / 146097
  let doe := k % 146097
  let yoe := yoeOf doe
  let doy := doyOf doe
  let mp := mpOf doy
  let d := doy - (153 * mp + 2) / 5 + 1
  let m := if mp < 10 then mp + 3 else mp - 9
  let y := yoe + era * 400
  (if m ≤ 2 then y + 1 else y, m, d)

/-- Day count from the first of January of year one of a calendar date. -/
def daysFromCivil (y m d : Nat) : Nat :=
  let ym := if m ≤ 2 then y - 1 else y
  let era := ym / 400
  let yoe := ym % 400
  let mp := if 2 < m then m - 3 else m + 9
  let doy := (153 * mp + 2) / 5 + d - 1
  let doe := 365 * yoe + yoe / 4 - yoe / 100 + doy
  era * 146097 + doe - 306

set_option maxHeartbeats 8000000 in
theorem yoe_bounds (doe : Nat) (h : doe ≤ 146096) :
    yoeOf doe ≤ 399 ∧ dstart (yoeOf doe) ≤ doe ∧ doe - dstart (yoeOf doe) ≤ 365 := by
  unfold yoeOf dstart
  have hq : doe / 1460 ≤ 100 := by omega
  set q := doe / 1460 with hqdef
  interval_cases q <;>
    first
    | omega
    | (rcases Nat.lt_or_ge doe 36524 with h36 | h36 <;>
        rcases Nat.lt_or_ge doe 73048 with h73 | h73 <;>
        rcases Nat.lt_or_ge doe 109572 with h109 | h109 <;>
        omega)

theorem mp_bounds (doy : Nat) (h : doy ≤ 365) :
    mpOf doy ≤ 11
    ∧ (153 * mpOf doy + 2) / 5 ≤ doy
    ∧ doy - (153 * mpOf doy + 2) / 5 ≤ 30 := by
  unfold mpOf
  omega

theorem civilFromDays_eq (n : Nat) :
    civilFromDays n =
      (if (if mpOf (doyOf ((n + 306) % 146097)) < 10 then mpOf (doyOf ((n + 306) % 146097)) + 3
          else mpOf (doyOf ((n + 306) % 146097)) - 9) ≤ 2
        then yoeOf ((n + 306) % 146097) + (n + 306) / 146097 * 400 + 1
        else yoeOf ((n + 306) % 146097) + (n + 306) / 146097 * 400,
       if mpOf (doyOf ((n + 306) % 146097)) < 10 then mpOf (doyOf ((n + 306) % 146097)) + 3
        else mpOf (doyOf ((n + 306) % 146097)) - 9,
       doyOf ((n + 306) % 146097) - (153 * mpOf (doyOf ((n + 306) % 146097)) + 2) / 5 + 1) :=
  rfl

theorem daysFromCivil_eq (y m d : Nat) :
    daysFromCivil y m d =
      (if m ≤ 2 then y - 1 else y) / 400 * 146097
        + (365 * ((if m ≤ 2 then y - 1 else y) % 400)
          + ((if m ≤ 2 then y - 1 else y) % 400) / 4
          - ((if m ≤ 2 then y - 1 else y) % 400) / 100
          + ((153 * (if 2 < m then m - 3 else m + 9) + 2) / 5 + d - 1)) - 306 :=
  rfl

theorem civil_roundtrip (n : Nat) (h : n ≤ 3652058) :
    daysFromCivil (civilFromDays n).1 (civilFromDays n).2.1 (civilFromDays n).2.2 = n
    ∧ 1 ≤ (civilFromDays n).1 ∧ (civilFromDays n).1 ≤ 9999
    ∧ 1 ≤ (civilFromDays n).2.1 ∧ (civilFromDays n).2.1 ≤ 12
    ∧ 1 ≤ (civilFromDays n).2.2 ∧ (civilFromDays n).2.2 ≤ 31 := by
  have hdoe0 : (n + 306) % 146097 ≤ 146096 := by omega
  obtain ⟨hy1, hy2, hy3⟩ := yoe_bounds ((n + 306) % 146097) hdoe0
  have hdoy0 : doyOf ((n + 306) % 146097) ≤ 365 := by
    unfold doyOf
    omega
  obtain ⟨hm1, hm2, hm3⟩ := mp_bounds (doyOf ((n + 306) % 146097)) hdoy0
  have hdoydef : doyOf ((n + 306) % 146097)
      = (n + 306) % 146097 - dstart (yoeOf ((n + 306) % 146097)) := rfl
  have hmpdef : mpOf (doyOf ((n + 306) % 146097))
      = (5 * doyOf ((n + 306) % 146097) + 2) / 153 := rfl
  have hdstart : dstart (yoeOf ((n + 306) % 146097))
      = 365 * yoeOf ((n + 306) % 146097) + yoeOf ((n + 306) % 146097) / 4
        - yoeOf ((n + 306) % 146097) / 100 := rfl
  rw [civilFromDays_eq]
  set doe := (n + 306) % 146097 with hdoeD
  set era := (n + 306) / 146097 with heraD
  set yoe := yoeOf doe with hyoeD
  set doy := doyOf doe with hdoyD
  set mp := mpOf doy with hmpD
  rw [hdstart] at hy2 hy3 hdoydef
  have hEe : (yoe + era * 400) / 400 = era := by omega
  have hEm : (yoe + era * 400) % 400 = yoe := by omega
  by_cases hmp10 : mp < 10
  · simp only [if_pos hmp10]
    have hA : ¬(mp + 3 ≤ 2) := by omega
    simp only [if_neg hA]
    rw [daysFromCivil_eq]
    simp only [if_neg hA]
    have hC : 2 < mp + 3 := by omega
    simp only [if_pos hC]
    have he1 : mp + 3 - 3 = mp := by omega
    rw [he1, hEe, hEm]
    omega
  · simp only [if_neg hmp10]
    have hA : mp - 9 ≤ 2 := by omega
    simp only [if_pos hA]
    rw [daysFromCivil_eq]
    simp only [if_pos hA]
    have hC : ¬(2 < mp - 9) := by omega
    simp only [if_neg hC]
    have he2 : mp - 9 + 9 = mp := by omega
    have he3 : yoe + era * 400 + 1 - 1 = yoe + era * 400 := by omega
    rw [he2, he3, hEe, hEm]
    omega

/-! ## Timestamp marshaling, embedding marshalTimestamp of the source. -/

/-- Errors of the timestamp marshaler, carrying the offending value. -/
inductive TimestampError where
  | secondsOutOfRange (secs : Int)
  | nanosOutOfRange (nanos : Int)
deriving DecidableEq

def maxTimestampSeconds : Int := 253402300799

def minTimestampSeconds : Int := -62135596800

/-- The date and time part of the formatted timestamp: UTC calendar fields of
the seconds value, rendered with four year digits and two digits for every
other field, as the reference layout of the source formats them. -/
def tsDateTime (secs : Int) : List Char :=
  let total : Nat := (secs - minTimestampSeconds).toNat
  let secOfDay := total % 86400
  let c := civilFromDays (total / 86400)
  padNat 4 c.1 ++ '-' :: padNat 2 c.2.1 ++ '-' :: padNat 2 c.2.2
    ++ 'T' :: padNat 2 (secOfDay / 3600) ++ ':' :: padNat 2 (secOfDay % 3600 / 60)
    ++ ':' :: padNat 2 (secOfDay % 60)

/-- Embeds marshalTimestamp: validate the ranges, format the UTC calendar
fields with nine fractional digits, trim the fraction in the two fixed steps
of the source, and emit one JSON string token with the zone letter. -/
def marshalTimestamp (secs nanos : Int) : Except TimestampError (List Tok) :=
  if secs < minTimestampSeconds ∨ secs > maxTimestampSeconds then
    .error (.secondsOutOfRange secs)
  else if nanos < 0 ∨ nanos > secondsInNanos then
    .error (.nanosOutOfRange nanos)
  else
    let x := tsDateTime secs ++ '.' :: padNat 9 nanos.toNat
    let x := trimSuffix x ['0', '0', '0']
    let x := trimSuffix x ['0', '0', '0']
    let x := trimSuffix x ['.', '0', '0', '0']
    .ok [Tok.str (x ++ ['Z'])]

theorem marshalTimestamp_ok (secs nanos : Int)
    (hs : -62135596800 ≤ secs ∧ secs ≤ 253402300799)
    (hn : 0 ≤ nanos ∧ nanos ≤ 999999999) :
    marshalTimestamp secs nanos
      = .ok [Tok.str (tsDateTime secs ++ fracOf nanos.toNat ++ ['Z'])] := by
  have hnlt : nanos.toNat < 1000000000 := by omega
  unfold marshalTimestamp
  rw [if_neg (by unfold minTimestampSeconds maxTimestampSeconds; omega),
    if_neg (by unfold secondsInNanos; omega)]
  show Except.ok [Tok.str (trimSuffix (trimSuffix (trimSuffix
      (tsDateTime secs ++ '.' :: padNat 9 nanos.toNat) ['0', '0', '0']) ['0', '0', '0'])
      ['.', '0', '0', '0'] ++ ['Z'])] = _
  rw [trimTriple _ _ hnlt]

/-- C8: for every timestamp within the declared ranges the encoder succeeds
and emits the UTC date and time, two digits per field and four year digits,
with the fractional part trimmed by the same rule as duration and the zone
letter appended; out-of-range values produce an error; the concrete example
encodes as stated. -/
theorem c8_timestamp_format (secs nanos : Int)
    (hs : -62135596800 ≤ secs ∧ secs ≤ 253402300799)
    (hn : 0 ≤ nanos ∧ nanos ≤ 999999999) :
    (∃ y mo d hh mi ss frac,
        marshalTimestamp secs nanos = Except.ok [Tok.str
          (padNat 4 y ++ '-' :: padNat 2 mo ++ '-' :: padNat 2 d
            ++ 'T' :: padNat 2 hh ++ ':' :: padNat 2 mi ++ ':' :: padNat 2 ss
            ++ frac ++ ['Z'])] ∧ fracShape frac)
    ∧ (∀ s2 n2 : Int, (s2 < -62135596800 ∨ 253402300799 < s2 ∨ n2 < 0 ∨ 999999999 < n2) →
        isErr (marshalTimestamp s2 n2) = true)
    ∧ marshalTimestamp 1693267200 0 = Except.ok [Tok.str "2023-08-29T00:00:00Z".toList] := by
  refine ⟨?_, ?_, rfl⟩
  · refine ⟨(civilFromDays ((secs - minTimestampSeconds).toNat / 86400)).1,
      (civilFromDays ((secs - minTimestampSeconds).toNat / 86400)).2.1,
      (civilFromDays ((secs - minTimestampSeconds).toNat / 86400)).2.2,
      (secs - minTimestampSeconds).toNat % 86400 / 3600,
      (secs - minTimestampSeconds).toNat % 86400 % 3600 / 60,
      (secs - minTimestampSeconds).toNat % 86400 % 60,
      fracOf nanos.toNat, ?_, fracOf_shape _⟩
    rw [marshalTimestamp_ok secs nanos hs hn]
    simp [tsDateTime, List.append_assoc]
  · intro s2 n2 hcond
    unfold marshalTimestamp minTimestampSeconds maxTimestampSeconds secondsInNanos
    by_cases h1 : s2 < -(62135596800 : Int) ∨ s2 > 253402300799
    · rw [if_pos h1]
      rfl
    · rw [if_neg h1, if_pos (by omega)]
      rfl

theorem c8_timestamp_format_witness :
    ((-62135596800 ≤ (1693267200 : Int) ∧ (1693267200 : Int) ≤ 253402300799)
      ∧ (0 ≤ (0 : Int) ∧ (0 : Int) ≤ 999999999))
    ∧ ((∃ y mo d hh mi ss frac,
        marshalTimestamp 1693267200 0 = Except.ok [Tok.str
          (padNat 4 y ++ '-' :: padNat 2 mo ++ '-' :: padNat 2 d
            ++ 'T' :: padNat 2 hh ++ ':' :: padNat 2 mi ++ ':' :: padNat 2 ss
            ++ frac ++ ['Z'])] ∧ fracShape frac)
      ∧ (∀ s2 n2 : Int, (s2 < -62135596800 ∨ 253402300799 < s2 ∨ n2 < 0 ∨ 999999999 < n2) →
          isErr (marshalTimestamp s2 n2) = true)
      ∧ marshalTimestamp 1693267200 0
          = Except.ok [Tok.str "2023-08-29T00:00:00Z".toList]) :=
  ⟨⟨by decide, by decide⟩, c8_timestamp_format 1693267200 0 (by decide) (by decide)⟩

/-! ## Wrapper scalars, Struct, ListValue, Empty, and the well-known type
dispatch of the source. -/

/-- Standard base64 with padding, the encoding the singular marshaler applies
to a bytes field. -/
def b64Char (n : Nat) : Char :=
  if n < 26 then Char.ofNat (65 + n)
  else if n < 52 then Char.ofNat (97 + (n - 26))
  else if n < 62 then Char.ofNat (48 + (n - 52))
  else if n = 62 then '+'
  else '/'

/-- Base64 encoding of a byte list, three bytes to four characters with
padding on the final group. -/
def base64Encode : List Nat → List Char
  | [] => []
  | [a] => [b64Char (a / 4), b64Char (a % 4 * 16), '=', '=']
  | [a, b] => [b64Char (a / 4), b64Char (a % 4 * 16 + b / 16), b64Char (b % 16 * 4), '=']
  | a :: b :: c :: rest =>
      b64Char (a / 4) :: b64Char (a % 4 * 16 + b / 16) :: b64Char (b % 16 * 4 + c / 64)
        :: b64Char (c % 64) :: base64Encode rest

/-- The nine wrapper messages, each holding its single value field. -/
inductive WrapperMsg where
  | boolValue (b : Bool)
  | int32Value (v : Int)
  | int64Value (v : Int)
  | uint32Value (v : Nat)
  | uint64Value (v : Nat)
  | floatValue (v : GoFloat)
  | doubleValue (v : GoFloat)
  | stringValue (s : List Char)
  | bytesValue (bs : List Nat)
deriving DecidableEq

/-- Embeds marshalWrapperType composed with the singular marshaler it
delegates to: booleans and 32-bit integers as primitive tokens, 64-bit
integers as decimal strings, floats as numbers, bytes base64-encoded. -/
def marshalWrapperType : WrapperMsg → List Tok
  | .boolValue b => [Tok.boolTok b]
  | .int32Value v => [Tok.intNum v]
  | .int64Value v => [Tok.str (intToChars v)]
  | .uint32Value v => [Tok.intNum (Int.ofNat v)]
  | .uint64Value v => [Tok.str (natToChars v)]
  | .floatValue f => [Tok.num f]
  | .doubleValue f => [Tok.num f]
  | .stringValue s => [Tok.str s]
  | .bytesValue bs => [Tok.str (base64Encode bs)]

/-- Embeds marshalStruct: the fields map inside one JSON object. -/
def marshalStruct (fields : List (List Char × Option VKind)) :
    Except ValueError (List Tok) := do
  let inner ← marshalFieldsV fields
  .ok (Tok.objStart :: (inner ++ [Tok.objEnd]))

/-- Embeds marshalListValue: the values list inside one JSON array. -/
def marshalListValue (vs : List (Option VKind)) : Except ValueError (List Tok) := do
  let inner ← marshalElemsV vs
  .ok (Tok.arrStart :: (inner ++ [Tok.arrEnd]))

/-- Embeds marshalEmpty: always the empty JSON object. -/
def marshalEmpty : List Tok := [Tok.objStart, Tok.objEnd]

/-- A message of one of the nine well-known types the dispatcher of the
source recognizes. -/
inductive WKMsg where
  | anyMsg (m : AnyMsg)
  | timestampMsg (secs nanos : Int)
  | durationMsg (secs nanos : Int)
  | wrapperMsg (w : WrapperMsg)
  | structMsg (fields : List (List Char × Option VKind))
  | listValueMsg (vs : List (Option VKind))
  | valueMsg (v : Option VKind)
  | fieldMaskMsg (paths : List (List Char))
  | emptyMsg

/-- Union of the marshal error kinds of the specialized routines. -/
inductive MarshalError where
  | anyErr (e : AnyError)
  | tsErr (e : TimestampError)
  | durErr (e : DurationError)
  | valErr (e : ValueError)
  | fmErr (e : FieldMaskError)

/-- Map the error of an Except value. -/
def mapErr {ε ε' α : Type} (f : ε → ε') : Except ε α → Except ε' α
  | .error e => .error (f e)
  | .ok a => .ok a

/-- Embeds wellKnownTypeMarshaler composed with the routine it selects: the
closed dispatch on the nine well-known shapes. -/
def marshalWellKnown (C : AnyCodecCollab) : WKMsg → Except MarshalError (List Tok)
  | .anyMsg m => mapErr .anyErr (marshalAny C m)
  | .timestampMsg s n => mapErr .tsErr (marshalTimestamp s n)
  | .durationMsg s n => mapErr .durErr (marshalDuration s n)
  | .wrapperMsg w => .ok (marshalWrapperType w)
  | .structMsg fs => mapErr .valErr (marshalStruct fs)
  | .listValueMsg vs => mapErr .valErr (marshalListValue vs)
  | .valueMsg v => mapErr .valErr (marshalKnownValue v)
  | .fieldMaskMsg ps => mapErr .fmErr (marshalFieldMask ps)
  | .emptyMsg => .ok marshalEmpty

/-! ## The JSONPb marshaler wrapper, embedding JSONPb.Marshal,
JSONPb.marshalTo and unmarshalJSONPb of the source.  A Go value that is not a
protobuf message is abstracted by its standard-library JSON image; the
standard json.Marshal is embedded as the plain recursive rendering of that
image. -/

/-- The JSON image of a non-protobuf Go value, as the standard json package
would render it. -/
inductive JsonVal where
  | jNull
  | jBool (b : Bool)
  | jInt (v : Int)
  | jStr (s : List Char)
  | jArr (xs : List JsonVal)
  | jObj (ms : List (List Char × JsonVal))

/-- The double quote character. -/
def quoteChar : Char := Char.ofNat 34

/-- The opening brace character. -/
def lbrace : Char := Char.ofNat 123

/-- The closing brace character. -/
def rbrace : Char := Char.ofNat 125

/-- Quote a string, on the escape-free subset the claims exercise. -/
def quoteStr (s : List Char) : List Char := quoteChar :: s ++ [quoteChar]

mutual

/-- Embeds the standard json.Marshal on the JSON image of a Go value.
Notably a 64-bit integer is rendered as a bare JSON number. -/
def jsonStdMarshal : JsonVal → List Char
  | .jNull => "null".toList
  | .jBool true => "true".toList
  | .jBool false => "false".toList
  | .jInt v => intToChars v
  | .jStr s => quoteStr s
  | .jArr xs => '[' :: (jsonStdArr xs ++ [']'])
  | .jObj ms => lbrace :: (jsonStdObj ms ++ [rbrace])

/-- Comma-joined rendering of array elements. -/
def jsonStdArr : List JsonVal → List Char
  | [] => []
  | [x] => jsonStdMarshal x
  | x :: rest => jsonStdMarshal x ++ ',' :: jsonStdArr rest

/-- Comma-joined rendering of object members. -/
def jsonStdObj : List (List Char × JsonVal) → List Char
  | [] => []
  | [(k, v)] => quoteStr k ++ ':' :: jsonStdMarshal v
  | (k, v) :: rest => quoteStr k ++ ':' :: jsonStdMarshal v ++ ',' :: jsonStdObj rest

end

/-- Rendering of a float token, as the protojson singular marshaler renders
a double: non-finite values as the quoted names, finite values by their
decimal text. -/
def renderGoFloat : GoFloat → List Char
  | .nan => quoteStr "NaN".toList
  | .posInf => quoteStr "Infinity".toList
  | .negInf => quoteStr "-Infinity".toList
  | .finite r => r

/-- Rendering of a token stream to JSON bytes, the character-level half of
the token writer: the flag tracks whether a comma is due before the next
member or element. -/
def renderToks : List Tok → Bool → List Char
  | [], _ => []
  | .objStart :: rest, needC => (if needC then [','] else []) ++ lbrace :: renderToks rest false
  | .objEnd :: rest, _ => rbrace :: renderToks rest true
  | .arrStart :: rest, needC => (if needC then [','] else []) ++ '[' :: renderToks rest false
  | .arrEnd :: rest, _ => ']' :: renderToks rest true
  | .name k :: rest, needC =>
      (if needC then [','] else []) ++ quoteStr k ++ ':' :: renderToks rest false
  | .str s :: rest, needC => (if needC then [','] else []) ++ quoteStr s ++ renderToks rest true
  | .num f :: rest, needC =>
      (if needC then [','] else []) ++ renderGoFloat f ++ renderToks rest true
  | .intNum v :: rest, needC =>
      (if needC then [','] else []) ++ intToChars v ++ renderToks rest true
  | .boolTok true :: rest, needC =>
      (if needC then [','] else []) ++ "true".toList ++ renderToks rest true
  | .boolTok false :: rest, needC =>
      (if needC then [','] else []) ++ "false".toList ++ renderToks rest true
  | .nullTok :: rest, needC =>
      (if needC then [','] else []) ++ "null".toList ++ renderToks rest true

/-- A Go value presented to the marshaler wrapper: either a protobuf message
of a well-known shape, or any other value abstracted by its standard JSON
image. -/
inductive GoVal where
  | protoMsg (m : WKMsg)
  | nonProto (j : JsonVal)

/-- Output of the wrapper: raw bytes from the standard library path, or the
token stream of the protojson path. -/
inductive MarshalOut where
  | raw (bytes : List Char)
  | toks (ts : List Tok)

/-- Embeds JSONPb.marshalTo: a non-message value goes through the standard
json.Marshal, a message through the protojson marshal options. -/
def marshalTo (C : AnyCodecCollab) : GoVal → Except MarshalError MarshalOut
  | .nonProto j => .ok (.raw (jsonStdMarshal j))
  | .protoMsg m => (marshalWellKnown C m).map .toks

/-- Embeds JSONPb.Marshal: a value that is not a protobuf message is handed
to the standard json.Marshal directly, a message goes through marshalTo. -/
def JSONPbMarshal (C : AnyCodecCollab) (v : GoVal) : Except MarshalError MarshalOut :=
  match v with
  | .nonProto j => .ok (.raw (jsonStdMarshal j))
  | .protoMsg _ => marshalTo C v

/-- The kind tag of a wrapper message, the shape a decoder targets. -/
inductive WrapperKind where
  | boolK
  | int32K
  | int64K
  | uint32K
  | uint64K
  | floatK
  | doubleK
  | stringK
  | bytesK
deriving DecidableEq

/-- The shape a decode call targets, one per well-known type. -/
inductive WKShape where
  | anySh
  | timestampSh
  | durationSh
  | wrapperSh (k : WrapperKind)
  | structSh
  | listValueSh
  | valueSh
  | fieldMaskSh
  | emptySh

/-- The unmarshal target: a protobuf message of a well-known shape or any
other Go value. -/
inductive GoTarget where
  | protoTarget (sh : WKShape)
  | nonProtoTarget

/-- Result of the unmarshal wrapper. -/
inductive UnmarshalOut where
  | stdVal (j : JsonVal)
  | protoVal (m : WKMsg)

/-- Embeds unmarshalJSONPb: a non-message target goes to the standard
json.Unmarshal, a message target has one raw JSON value extracted by the
standard decoder and then handed to the protojson unmarshaler.  The three
collaborators are the injected capabilities of the source. -/
def unmarshalJSONPb (stdUn : List Char → Except Unit JsonVal)
    (rawExtract : List Char → Except Unit (List Char))
    (protoUn : WKShape → List Char → Except Unit WKMsg)
    (data : List Char) : GoTarget → Except Unit UnmarshalOut
  | .nonProtoTarget => (stdUn data).map .stdVal
  | .protoTarget sh => do
      let raw ← rawExtract data
      (protoUn sh raw).map .protoVal

/-- C10: a value that is not a protobuf message marshals to exactly the
standard json.Marshal output and unmarshals through the standard
json.Unmarshal; the canonical protobuf mapping runs only for protobuf
messages, where Marshal defers to the protojson path and Unmarshal extracts
one raw JSON value and hands it to the protojson unmarshaler. -/
theorem c10_nonproto_std_dispatch :
    (∀ (C : AnyCodecCollab) (j : JsonVal),
      JSONPbMarshal C (GoVal.nonProto j) = Except.ok (MarshalOut.raw (jsonStdMarshal j)))
    ∧ (∀ (C : AnyCodecCollab) (m : WKMsg),
      JSONPbMarshal C (GoVal.protoMsg m) = (marshalWellKnown C m).map MarshalOut.toks)
    ∧ (∀ stdUn rawExtract protoUn (data : List Char),
      unmarshalJSONPb stdUn rawExtract protoUn data GoTarget.nonProtoTarget
        = (stdUn data).map UnmarshalOut.stdVal)
    ∧ (∀ stdUn rawExtract protoUn (data : List Char) (sh : WKShape),
      unmarshalJSONPb stdUn rawExtract protoUn data (GoTarget.protoTarget sh)
        = (rawExtract data).bind (fun raw => (protoUn sh raw).map UnmarshalOut.protoVal)) :=
  ⟨fun _ _ => rfl, fun _ _ => rfl, fun _ _ _ _ => rfl, fun _ _ _ _ _ => rfl⟩

/-- True when the pattern starts the list. -/
def startsList (pat l : List Char) : Bool :=
  match pat, l with
  | [], _ => true
  | _ :: _, [] => false
  | p :: ps, c :: cs => p == c && startsList ps cs

/-- True when the pattern occurs contiguously anywhere in the list. -/
def occursIn (pat l : List Char) : Bool :=
  match l with
  | [] => startsList pat []
  | _ :: rest => startsList pat l || occursIn pat rest

/-- The JSON image of the repository test fixture restricted to its 64-bit
integer field: a plain Go struct holding two to the fifty-fourth. -/
def c3Json : JsonVal :=
  JsonVal.jObj [("managerId".toList, JsonVal.jInt 18014398509481984)]

/-- C3 counterexample: marshaling a non-protobuf value holding the 64-bit
integer in a generic field defers to the standard json.Marshal and emits the
bare JSON number, exactly as the repository test expects; the quoted form the
claim demands does not occur in the output. -/
theorem c3_counterexample :
    JSONPbMarshal trivialCollab (GoVal.nonProto c3Json)
      = Except.ok (MarshalOut.raw (jsonStdMarshal c3Json))
    ∧ occursIn "18014398509481984".toList (jsonStdMarshal c3Json) = true
    ∧ occursIn (quoteStr "18014398509481984".toList) (jsonStdMarshal c3Json) = false := by
  have hout : jsonStdMarshal c3Json
      = lbrace :: ((quoteStr "managerId".toList ++ ':' :: intToChars 18014398509481984)
        ++ [rbrace]) := by
    simp [c3Json, jsonStdMarshal, jsonStdObj]
  refine ⟨rfl, ?_, ?_⟩ <;>
    rw [hout] <;>
    decide

/-- C3 amended: the 64-bit integer two to the fifty-fourth marshals as the
quoted JSON string only on the protojson path, in a protobuf wrapper
message; a non-protobuf value holding it in a generic field defers to the
standard json.Marshal, which emits the bare JSON number, as the repository
test expects. -/
theorem c3_int64_amended :
    (∀ (C : AnyCodecCollab) (v : Int),
      JSONPbMarshal C (GoVal.protoMsg (WKMsg.wrapperMsg (WrapperMsg.int64Value v)))
        = Except.ok (MarshalOut.toks [Tok.str (intToChars v)]))
    ∧ renderToks [Tok.str "18014398509481984".toList] false
        = quoteStr "18014398509481984".toList
    ∧ (∀ (C : AnyCodecCollab) (j : JsonVal),
      JSONPbMarshal C (GoVal.nonProto j) = Except.ok (MarshalOut.raw (jsonStdMarshal j)))
    ∧ jsonStdMarshal (JsonVal.jInt 18014398509481984) = "18014398509481984".toList := by
  refine ⟨fun C v => rfl, by decide, fun C j => rfl, ?_⟩
  have h : jsonStdMarshal (JsonVal.jInt 18014398509481984)
      = intToChars 18014398509481984 := by
    simp [jsonStdMarshal]
  rw [h]
  decide

/-! ## Decimal parsing, the shared half of the spec-modelled decoders. -/

/-- Value of a decimal digit character. -/
def digitVal (c : Char) : Option Nat :=
  if 48 ≤ c.toNat ∧ c.toNat ≤ 57 then some (c.toNat - 48) else none

/-- Left fold of decimal digits onto an accumulator; fails on a non-digit. -/
def parseDigitsAux (acc : Nat) : List Char → Option Nat
  | [] => some acc
  | c :: rest =>
    match digitVal c with
    | some d => parseDigitsAux (10 * acc + d) rest
    | none => none

/-- Parse a non-empty all-digit string as a natural number. -/
def parseDigits (l : List Char) : Option Nat :=
  match l with
  | [] => none
  | _ => parseDigitsAux 0 l

theorem digitVal_digitChar (d : Nat) (h : d < 10) : digitVal (digitChar d) = some d := by
  interval_cases d <;> decide

theorem parseDigitsAux_append (u : List Char) : ∀ (acc : Nat) (v : List Char),
    parseDigitsAux acc (u ++ v)
      = (parseDigitsAux acc u).bind (fun a => parseDigitsAux a v) := by
  induction u with
  | nil => intro acc v; simp [parseDigitsAux]
  | cons c rest ih =>
    intro acc v
    cases hd : digitVal c with
    | none => simp [parseDigitsAux, hd]
    | some d => simp [parseDigitsAux, hd, ih]

theorem parseDigitsAux_padNat (k : Nat) : ∀ (acc n : Nat),
    parseDigitsAux acc (padNat k n) = some (acc * 10 ^ k + n % 10 ^ k) := by
  induction k with
  | zero =>
    intro acc n
    simp [padNat, parseDigitsAux, Nat.mod_one]
  | succ k ih =>
    intro acc n
    show parseDigitsAux acc (padNat k (n / 10) ++ [digitChar (n % 10)]) = _
    rw [parseDigitsAux_append, ih acc (n / 10)]
    have hd : digitVal (digitChar (n % 10)) = some (n % 10) :=
      digitVal_digitChar (n % 10) (Nat.mod_lt _ (by norm_num))
    simp only [Option.some_bind, parseDigitsAux, hd]
    have hkey : n % 10 ^ (k + 1) = n % 10 + 10 * (n / 10 % 10 ^ k) := by
      rw [show (10 : Nat) ^ (k + 1) = 10 * 10 ^ k from by ring]
      exact Nat.mod_mul
    rw [hkey, show (10 : Nat) ^ (k + 1) = 10 * 10 ^ k from by ring]
    congr 1
    ring

theorem parseDigits_padNat (k n : Nat) (hk : 0 < k) (hn : n < 10 ^ k) :
    parseDigits (padNat k n) = some n := by
  have hne : padNat k n ≠ [] := by
    intro hnil
    have := padNat_length k n
    rw [hnil] at this
    simp at this
    omega
  cases hpn : padNat k n with
  | nil => exact absurd hpn hne
  | cons c rest =>
    show parseDigitsAux 0 (c :: rest) = some n
    rw [← hpn, parseDigitsAux_padNat]
    simp [Nat.mod_eq_of_lt hn]

theorem parseDigitsAux_natToChars (n : Nat) : ∀ acc : Nat,
    parseDigitsAux acc (natToChars n) = some (acc * 10 ^ (natToChars n).length + n) := by
  induction n using Nat.strong_induction_on with
  | _ n ih =>
    intro acc
    rw [natToChars_eq]
    by_cases h10 : n < 10
    · rw [if_pos h10]
      have hd : digitVal (digitChar n) = some n := digitVal_digitChar n h10
      simp [parseDigitsAux, hd]
      ring
    · rw [if_neg h10]
      rw [parseDigitsAux_append, ih (n / 10) (by omega) acc]
      have hd : digitVal (digitChar (n % 10)) = some (n % 10) :=
        digitVal_digitChar (n % 10) (Nat.mod_lt _ (by norm_num))
      simp only [Option.some_bind, parseDigitsAux, hd]
      have hlen : (natToChars (n / 10) ++ [digitChar (n % 10)]).length
          = (natToChars (n / 10)).length + 1 := by simp
      rw [hlen]
      have hsplit2 : 10 * (acc * 10 ^ (natToChars (n / 10)).length + n / 10) + n % 10
          = acc * 10 ^ ((natToChars (n / 10)).length + 1) + (10 * (n / 10) + n % 10) := by
        rw [pow_succ]
        ring
      rw [hsplit2, Nat.div_add_mod n 10]

theorem parseDigits_natToChars (n : Nat) : parseDigits (natToChars n) = some n := by
  cases hpn : natToChars n with
  | nil => exact absurd hpn (natToChars_ne_nil n)
  | cons c rest =>
    show parseDigitsAux 0 (c :: rest) = some n
    rw [← hpn, parseDigitsAux_natToChars]
    simp

/-! ## Duration decoding, modelled from the specification, and its round
trip against the encoder. -/

/-- True away from the fraction dot. -/
def notDot (c : Char) : Bool := c != '.'

theorem digits_notDot (l : List Char) (h : l.all isASCIIDigit = true) :
    ∀ c ∈ l, notDot c = true := by
  intro c hc
  have hd := List.all_eq_true.mp h c hc
  simp only [notDot, bne_iff_ne, ne_eq]
  intro heq
  subst heq
  simp [isASCIIDigit] at hd

theorem takeWhile_append_all (p : Char → Bool) (u v : List Char)
    (hu : ∀ c ∈ u, p c = true) : (u ++ v).takeWhile p = u ++ v.takeWhile p := by
  induction u with
  | nil => simp
  | cons c rest ih =>
    simp only [List.cons_append, List.takeWhile_cons, hu c (List.mem_cons_self c rest)]
    rw [ih (fun d hd => hu d (List.mem_cons_of_mem c hd))]
    simp

theorem dropWhile_append_all (p : Char → Bool) (u v : List Char)
    (hu : ∀ c ∈ u, p c = true) : (u ++ v).dropWhile p = v.dropWhile p := by
  induction u with
  | nil => simp
  | cons c rest ih =>
    simp only [List.cons_append, List.dropWhile_cons, hu c (List.mem_cons_self c rest)]
    exact ih (fun d hd => hu d (List.mem_cons_of_mem c hd))

/-- Modelled from the spec: scale a parsed fractional field of three, six or
nine digits to nanoseconds; other digit counts are rejected. -/
def parseFracNanos (l : List Char) : Option Nat :=
  match l with
  | [] => some 0
  | '.' :: dgs =>
    if dgs.length = 3 then (parseDigits dgs).map (fun m => m * 1000000)
    else if dgs.length = 6 then (parseDigits dgs).map (fun m => m * 1000)
    else if dgs.length = 9 then parseDigits dgs
    else none
  | _ => none

theorem parseFracNanos_fracOf (n : Nat) (hn : n < 1000000000) :
    parseFracNanos (fracOf n) = some n := by
  unfold fracOf
  split_ifs with h0 h6 h3
  · subst h0
    rfl
  · have hlen : (padNat 3 (n / 1000000)).length = 3 := padNat_length 3 _
    have hp : parseDigits (padNat 3 (n / 1000000)) = some (n / 1000000) :=
      parseDigits_padNat 3 _ (by norm_num) (by norm_num; omega)
    simp [parseFracNanos, hlen, hp]
    omega
  · have hlen : (padNat 6 (n / 1000)).length = 6 := padNat_length 6 _
    have hp : parseDigits (padNat 6 (n / 1000)) = some (n / 1000) :=
      parseDigits_padNat 6 _ (by norm_num) (by norm_num; omega)
    simp [parseFracNanos, hlen, hp]
    omega
  · have hlen : (padNat 9 n).length = 9 := padNat_length 9 _
    have hp : parseDigits (padNat 9 n) = some n :=
      parseDigits_padNat 9 _ (by norm_num) (by norm_num; omega)
    simp [parseFracNanos, hlen, hp]

theorem fracOf_takeWhile (n : Nat) : (fracOf n).takeWhile notDot = [] := by
  unfold fracOf
  split_ifs <;> simp [List.takeWhile_cons, notDot]

theorem fracOf_dropWhile (n : Nat) : (fracOf n).dropWhile notDot = fracOf n := by
  unfold fracOf
  split_ifs <;> simp [List.dropWhile_cons, notDot]

/-- Modelled from the spec: reconstruct seconds and nanoseconds from the
numeral body of a duration string, apply the factored sign to both fields,
and re-validate the ranges and the sign consistency. -/
def decodeDurationBody (body : List Char) (neg : Bool) : Except Unit (Int × Int) :=
  match parseDigits (body.takeWhile notDot), parseFracNanos (body.dropWhile notDot) with
  | some s, some n =>
    let secs : Int := if neg then -(s : Int) else (s : Int)
    let nanos : Int := if neg then -(n : Int) else (n : Int)
    if secs < -maxSecondsInDuration ∨ secs > maxSecondsInDuration then .error ()
    else if nanos < -secondsInNanos ∨ nanos > secondsInNanos then .error ()
    else if (secs > 0 ∧ nanos < 0) ∨ (secs < 0 ∧ nanos > 0) then .error ()
    else .ok (secs, nanos)
  | _, _ => .error ()

/-- Modelled from the spec: the duration decoder expects a single JSON
string token, strips the trailing unit letter, takes an optional leading
minus sign as the shared sign of both fields, and parses the numeral body. -/
def decodeDuration (toks : List Tok) : Except Unit (Int × Int) :=
  match toks with
  | [Tok.str cs] =>
    if cs.getLast? = some 's' then
      match cs.dropLast with
      | [] => .error ()
      | c :: rest =>
        if c = '-' then decodeDurationBody rest true
        else decodeDurationBody (c :: rest) false
    else .error ()
  | _ => .error ()

theorem decodeDurationBody_eval (S N : Nat) (hS : S ≤ 315576000000)
    (hN : N ≤ 999999999) (neg : Bool) :
    decodeDurationBody (natToChars S ++ fracOf N) neg
      = .ok (if neg then -(S : Int) else (S : Int),
             if neg then -(N : Int) else (N : Int)) := by
  have hdig : ∀ c ∈ natToChars S, notDot c = true :=
    digits_notDot _ (natToChars_all_digits S)
  have htake : (natToChars S ++ fracOf N).takeWhile notDot = natToChars S := by
    rw [takeWhile_append_all notDot _ _ hdig, fracOf_takeWhile]
    simp
  have hdropw : (natToChars S ++ fracOf N).dropWhile notDot = fracOf N := by
    rw [dropWhile_append_all notDot _ _ hdig, fracOf_dropWhile]
  unfold decodeDurationBody
  rw [htake, hdropw, parseDigits_natToChars, parseFracNanos_fracOf N (by omega)]
  cases neg with
  | true =>
    show (if -((S : Int)) < -maxSecondsInDuration ∨ -((S : Int)) > maxSecondsInDuration then
        Except.error ()
      else if -((N : Int)) < -secondsInNanos ∨ -((N : Int)) > secondsInNanos then
        Except.error ()
      else if (-((S : Int)) > 0 ∧ -((N : Int)) < 0) ∨ (-((S : Int)) < 0 ∧ -((N : Int)) > 0) then
        Except.error ()
      else Except.ok (-((S : Int)), -((N : Int))))
      = Except.ok (-((S : Int)), -((N : Int)))
    rw [if_neg (by unfold maxSecondsInDuration; omega),
      if_neg (by unfold secondsInNanos; omega),
      if_neg (by omega)]
  | false =>
    show (if ((S : Int)) < -maxSecondsInDuration ∨ ((S : Int)) > maxSecondsInDuration then
        Except.error ()
      else if ((N : Int)) < -secondsInNanos ∨ ((N : Int)) > secondsInNanos then
        Except.error ()
      else if (((S : Int)) > 0 ∧ ((N : Int)) < 0) ∨ (((S : Int)) < 0 ∧ ((N : Int)) > 0) then
        Except.error ()
      else Except.ok (((S : Int)), ((N : Int))))
      = Except.ok (((S : Int)), ((N : Int)))
    rw [if_neg (by unfold maxSecondsInDuration; omega),
      if_neg (by unfold secondsInNanos; omega),
      if_neg (by omega)]

theorem duration_decode_encode (secs nanos : Int)
    (hs : -315576000000 ≤ secs ∧ secs ≤ 315576000000)
    (hn : -999999999 ≤ nanos ∧ nanos ≤ 999999999)
    (hsign : ¬((0 < secs ∧ nanos < 0) ∨ (secs < 0 ∧ 0 < nanos))) :
    ∃ toks, marshalDuration secs nanos = .ok toks
      ∧ decodeDuration toks = .ok (secs, nanos) := by
  refine ⟨[Tok.str ((((if secs < 0 ∨ nanos < 0 then ['-'] else [])
      ++ natToChars secs.natAbs) ++ fracOf nanos.natAbs) ++ ['s'])], ?_, ?_⟩
  · rw [marshalDuration_ok secs nanos hs hn hsign]
  simp only [decodeDuration]
  rw [List.getLast?_concat, if_pos rfl, List.dropLast_concat]
  by_cases hneg : secs < 0 ∨ nanos < 0
  · rw [if_pos hneg]
    have hcons : (['-'] ++ natToChars secs.natAbs) ++ fracOf nanos.natAbs
        = '-' :: (natToChars secs.natAbs ++ fracOf nanos.natAbs) := by simp
    rw [hcons]
    show decodeDurationBody (natToChars secs.natAbs ++ fracOf nanos.natAbs) true = _
    rw [decodeDurationBody_eval _ _ (by omega) (by omega) true]
    have e1 : (if true then -((secs.natAbs : Int)) else ((secs.natAbs : Int))) = secs := by
      show -((secs.natAbs : Int)) = secs
      omega
    have e2 : (if true then -((nanos.natAbs : Int)) else ((nanos.natAbs : Int))) = nanos := by
      show -((nanos.natAbs : Int)) = nanos
      omega
    rw [e1, e2]
  · rw [if_neg hneg]
    have hnil : ([] ++ natToChars secs.natAbs) ++ fracOf nanos.natAbs
        = natToChars secs.natAbs ++ fracOf nanos.natAbs := by simp
    rw [hnil]
    cases hnc : natToChars secs.natAbs with
    | nil => exact absurd hnc (natToChars_ne_nil _)
    | cons c r =>
      have hcd : isASCIIDigit c = true := by
        have := natToChars_all_digits secs.natAbs
        rw [hnc] at this
        exact List.all_eq_true.mp this c (List.mem_cons_self c r)
      have hcne : c ≠ '-' := by
        intro he
        subst he
        simp [isASCIIDigit] at hcd
      show (if c = '-' then decodeDurationBody (r ++ fracOf nanos.natAbs) true
        else decodeDurationBody (c :: (r ++ fracOf nanos.natAbs)) false) = _
      rw [if_neg hcne,
        show c :: (r ++ fracOf nanos.natAbs) = (c :: r) ++ fracOf nanos.natAbs from rfl,
        ← hnc,
        decodeDurationBody_eval _ _ (by omega) (by omega) false]
      have e1 : (if false then -((secs.natAbs : Int)) else ((secs.natAbs : Int))) = secs := by
        show ((secs.natAbs : Int)) = secs
        omega
      have e2 : (if false then -((nanos.natAbs : Int)) else ((nanos.natAbs : Int))) = nanos := by
        show ((nanos.natAbs : Int)) = nanos
        omega
      rw [e1, e2]

/-! ## Timestamp decoding, modelled from the specification, and its round
trip against the encoder. -/

theorem exbind_ok {ε α β : Type} (a : α) (f : α → Except ε β) :
    (Except.ok a >>= f : Except ε β) = f a := rfl

theorem exmap_ok {ε α β : Type} (f : α → β) (a : α) :
    (Except.map f (Except.ok a) : Except ε β) = Except.ok (f a) := rfl

theorem take_pad (k n : Nat) (v : List Char) : (padNat k n ++ v).take k = padNat k n := by
  have h := List.take_left (padNat k n) v
  rw [padNat_length] at h
  exact h

theorem drop_pad (k n : Nat) (v : List Char) : (padNat k n ++ v).drop k = v := by
  have h := List.drop_left (padNat k n) v
  rw [padNat_length] at h
  exact h

theorem parseDigits_padNat_mod (k n : Nat) (hk : 0 < k) :
    parseDigits (padNat k n) = some (n % 10 ^ k) := by
  have hne : padNat k n ≠ [] := by
    intro hnil
    have := padNat_length k n
    rw [hnil] at this
    simp at this
    omega
  cases hpn : padNat k n with
  | nil => exact absurd hpn hne
  | cons c rest =>
    show parseDigitsAux 0 (c :: rest) = some (n % 10 ^ k)
    rw [← hpn, parseDigitsAux_padNat]
    simp

/-- Modelled from the spec: read one fixed-width decimal field and return it
with the remaining text. -/
def parseField (w : Nat) (b : List Char) : Except Unit (Nat × List Char) :=
  match parseDigits (b.take w) with
  | some v => .ok (v, b.drop w)
  | none => .error ()

/-- Modelled from the spec: consume one expected separator character. -/
def expectChar (c : Char) : List Char → Except Unit (List Char)
  | d :: rest => if d = c then .ok rest else .error ()
  | [] => .error ()

theorem parseField_pad4 (n : Nat) (v : List Char) :
    parseField 4 (padNat 4 n ++ v) = .ok (n % 10000, v) := by
  unfold parseField
  rw [take_pad, drop_pad, parseDigits_padNat_mod 4 n (by norm_num)]
  norm_num

theorem parseField_pad2 (n : Nat) (v : List Char) :
    parseField 2 (padNat 2 n ++ v) = .ok (n % 100, v) := by
  unfold parseField
  rw [take_pad, drop_pad, parseDigits_padNat_mod 2 n (by norm_num)]
  norm_num

theorem expectChar_cons (c : Char) (rest : List Char) : expectChar c (c :: rest) = .ok rest := by
  simp [expectChar]

/-- Modelled from the spec: parse the fixed-width calendar and clock fields
of the timestamp body, scale the trimmed fraction back to nanoseconds,
normalize the calendar fields to seconds from the epoch, and re-validate the
ranges. -/
def decodeTsBody (b : List Char) : Except Unit (Int × Int) := do
  let (y, r1) ← parseField 4 b
  let r1b ← expectChar '-' r1
  let (mo, r2) ← parseField 2 r1b
  let r2b ← expectChar '-' r2
  let (d, r3) ← parseField 2 r2b
  let r3b ← expectChar 'T' r3
  let (hh, r4) ← parseField 2 r3b
  let r4b ← expectChar ':' r4
  let (mi, r5) ← parseField 2 r4b
  let r5b ← expectChar ':' r5
  let (ss, r6) ← parseField 2 r5b
  match parseFracNanos r6 with
  | none => .error ()
  | some n =>
    let secs : Int :=
      ((daysFromCivil y mo d * 86400 + hh * 3600 + mi * 60 + ss : Nat) : Int)
        + minTimestampSeconds
    if secs < minTimestampSeconds ∨ secs > maxTimestampSeconds then .error ()
    else if (n : Int) > secondsInNanos then .error ()
    else .ok (secs, (n : Int))

/-- Modelled from the spec: the timestamp decoder expects one JSON string
token ending in the zone letter and parses the body before it. -/
def decodeTimestamp (toks : List Tok) : Except Unit (Int × Int) :=
  match toks with
  | [Tok.str cs] =>
    if cs.getLast? = some 'Z' then decodeTsBody cs.dropLast
    else .error ()
  | _ => .error ()

theorem decodeTsBody_eval (Y MO D HH MI SS N : Nat)
    (hY : Y < 10000) (hMO : MO < 100) (hD : D < 100) (hHH : HH < 100)
    (hMI : MI < 100) (hSS : SS < 100) (hN : N < 1000000000) :
    decodeTsBody (padNat 4 Y ++ '-' :: (padNat 2 MO ++ '-' :: (padNat 2 D ++ 'T' ::
        (padNat 2 HH ++ ':' :: (padNat 2 MI ++ ':' :: (padNat 2 SS ++ fracOf N))))))
      = (if ((daysFromCivil Y MO D * 86400 + HH * 3600 + MI * 60 + SS : Nat) : Int)
              + minTimestampSeconds < minTimestampSeconds
          ∨ ((daysFromCivil Y MO D * 86400 + HH * 3600 + MI * 60 + SS : Nat) : Int)
              + minTimestampSeconds > maxTimestampSeconds then .error ()
        else if (N : Int) > secondsInNanos then .error ()
        else .ok (((daysFromCivil Y MO D * 86400 + HH * 3600 + MI * 60 + SS : Nat) : Int)
          + minTimestampSeconds, (N : Int))) := by
  simp only [decodeTsBody, parseField_pad4, parseField_pad2, expectChar_cons, exbind_ok,
    Nat.mod_eq_of_lt hY, Nat.mod_eq_of_lt hMO, Nat.mod_eq_of_lt hD, Nat.mod_eq_of_lt hHH,
    Nat.mod_eq_of_lt hMI, Nat.mod_eq_of_lt hSS, parseFracNanos_fracOf N hN]

theorem timestamp_decode_encode (secs nanos : Int)
    (hs : -62135596800 ≤ secs ∧ secs ≤ 253402300799)
    (hn : 0 ≤ nanos ∧ nanos ≤ 999999999) :
    ∃ toks, marshalTimestamp secs nanos = .ok toks
      ∧ decodeTimestamp toks = .ok (secs, nanos) := by
  have hdays : (secs - minTimestampSeconds).toNat / 86400 ≤ 3652058 := by
    unfold minTimestampSeconds
    omega
  obtain ⟨hrt, hy1, hy2, hmo1, hmo2, hd1, hd2⟩ :=
    civil_roundtrip ((secs - minTimestampSeconds).toNat / 86400) hdays
  refine ⟨[Tok.str ((tsDateTime secs ++ fracOf nanos.toNat) ++ ['Z'])], ?_, ?_⟩
  · rw [marshalTimestamp_ok secs nanos hs hn]
  · simp only [decodeTimestamp]
    rw [List.getLast?_concat, if_pos rfl, List.dropLast_concat]
    have hdt : tsDateTime secs ++ fracOf nanos.toNat
        = padNat 4 (civilFromDays ((secs - minTimestampSeconds).toNat / 86400)).1
          ++ '-' :: (padNat 2 (civilFromDays ((secs - minTimestampSeconds).toNat / 86400)).2.1
          ++ '-' :: (padNat 2 (civilFromDays ((secs - minTimestampSeconds).toNat / 86400)).2.2
          ++ 'T' :: (padNat 2 ((secs - minTimestampSeconds).toNat % 86400 / 3600)
          ++ ':' :: (padNat 2 ((secs - minTimestampSeconds).toNat % 86400 % 3600 / 60)
          ++ ':' :: (padNat 2 ((secs - minTimestampSeconds).toNat % 86400 % 60)
          ++ fracOf nanos.toNat))))) := by
      simp [tsDateTime, List.append_assoc]
    rw [hdt, decodeTsBody_eval _ _ _ _ _ _ _ (by omega) (by omega) (by omega)
      (by omega) (by omega) (by omega) (by omega), hrt]
    have hfix : (((secs - minTimestampSeconds).toNat / 86400 * 86400
          + (secs - minTimestampSeconds).toNat % 86400 / 3600 * 3600
          + (secs - minTimestampSeconds).toNat % 86400 % 3600 / 60 * 60
          + (secs - minTimestampSeconds).toNat % 86400 % 60 : Nat) : Int)
        + minTimestampSeconds = secs := by
      unfold minTimestampSeconds
      omega
    rw [hfix, if_neg (by unfold minTimestampSeconds maxTimestampSeconds; omega),
      if_neg (by unfold secondsInNanos; omega),
      show ((nanos.toNat : Int)) = nanos from by omega]

/-! ## Base64 and wrapper decoding, modelled from the specification. -/

/-- Value of a base64 character. -/
def b64Val (c : Char) : Option Nat :=
  if 65 ≤ c.toNat ∧ c.toNat ≤ 90 then some (c.toNat - 65)
  else if 97 ≤ c.toNat ∧ c.toNat ≤ 122 then some (c.toNat - 97 + 26)
  else if 48 ≤ c.toNat ∧ c.toNat ≤ 57 then some (c.toNat - 48 + 52)
  else if c = '+' then some 62
  else if c = '/' then some 63
  else none

theorem b64Val_b64Char (n : Nat) (h : n < 64) : b64Val (b64Char n) = some n := by
  unfold b64Char
  split_ifs with h1 h2 h3 h4
  · have ht : (Char.ofNat (65 + n)).toNat = 65 + n := char_toNat_ofNat _ (by omega)
    unfold b64Val
    rw [ht, if_pos (by omega), show 65 + n - 65 = n from by omega]
  · have ht : (Char.ofNat (97 + (n - 26))).toNat = 97 + (n - 26) :=
      char_toNat_ofNat _ (by omega)
    unfold b64Val
    rw [ht, if_neg (by omega), if_pos (by omega),
      show 97 + (n - 26) - 97 + 26 = n from by omega]
  · have ht : (Char.ofNat (48 + (n - 52))).toNat = 48 + (n - 52) :=
      char_toNat_ofNat _ (by omega)
    unfold b64Val
    rw [ht, if_neg (by omega), if_neg (by omega), if_pos (by omega),
      show 48 + (n - 52) - 48 + 52 = n from by omega]
  · have hn : n = 62 := by omega
    subst hn
    decide
  · have hn : n = 63 := by omega
    subst hn
    decide

theorem b64Char_ne_eq (n : Nat) (h : n < 64) : b64Char n ≠ '=' := by
  have h61 : ('=' : Char).toNat = 61 := by decide
  unfold b64Char
  split_ifs with h1 h2 h3 h4
  · intro he
    have ht : (Char.ofNat (65 + n)).toNat = 65 + n := char_toNat_ofNat _ (by omega)
    rw [he, h61] at ht
    omega
  · intro he
    have ht : (Char.ofNat (97 + (n - 26))).toNat = 97 + (n - 26) :=
      char_toNat_ofNat _ (by omega)
    rw [he, h61] at ht
    omega
  · intro he
    have ht : (Char.ofNat (48 + (n - 52))).toNat = 48 + (n - 52) :=
      char_toNat_ofNat _ (by omega)
    rw [he, h61] at ht
    omega
  · decide
  · decide

/-- Modelled from the spec: base64 decoding with padding, the inverse of the
bytes-field encoding. -/
def base64Decode : List Char → Except Unit (List Nat)
  | [] => .ok []
  | c1 :: c2 :: c3 :: c4 :: rest =>
    match b64Val c1, b64Val c2 with
    | some s1, some s2 =>
      if c3 = '=' ∧ c4 = '=' ∧ rest = [] then .ok [s1 * 4 + s2 / 16]
      else if c4 = '=' ∧ rest = [] then
        match b64Val c3 with
        | some s3 => .ok [s1 * 4 + s2 / 16, s2 % 16 * 16 + s3 / 4]
        | none => .error ()
      else
        match b64Val c3, b64Val c4 with
        | some s3, some s4 => do
          let tail ← base64Decode rest
          .ok ((s1 * 4 + s2 / 16) :: ((s2 % 16 * 16 + s3 / 4) :: ((s3 % 4 * 64 + s4) :: tail)))
        | _, _ => .error ()
    | _, _ => .error ()
  | _ => .error ()

theorem base64_roundtrip_aux (k : Nat) : ∀ (bs : List Nat), bs.length ≤ k →
    (∀ x ∈ bs, x < 256) → base64Decode (base64Encode bs) = .ok bs := by
  induction k with
  | zero =>
    intro bs hlen _
    have hbs : bs = [] := List.length_eq_zero.mp (by omega)
    subst hbs
    rfl
  | succ k ih =>
    intro bs hlen h
    match bs with
    | [] => rfl
    | [a] =>
      have ha : a < 256 := h a (by simp)
      have h1 : b64Val (b64Char (a / 4)) = some (a / 4) := b64Val_b64Char _ (by omega)
      have h2 : b64Val (b64Char (a % 4 * 16)) = some (a % 4 * 16) :=
        b64Val_b64Char _ (by omega)
      simp only [base64Encode, base64Decode, h1, h2]
      rw [if_pos ⟨trivial, trivial, trivial⟩,
        show a / 4 * 4 + a % 4 * 16 / 16 = a from by omega]
    | [a, b] =>
      have ha : a < 256 := h a (by simp)
      have hb : b < 256 := h b (by simp)
      have h1 : b64Val (b64Char (a / 4)) = some (a / 4) := b64Val_b64Char _ (by omega)
      have h2 : b64Val (b64Char (a % 4 * 16 + b / 16)) = some (a % 4 * 16 + b / 16) :=
        b64Val_b64Char _ (by omega)
      have h3 : b64Val (b64Char (b % 16 * 4)) = some (b % 16 * 4) :=
        b64Val_b64Char _ (by omega)
      have hne : b64Char (b % 16 * 4) ≠ '=' := b64Char_ne_eq _ (by omega)
      simp only [base64Encode, base64Decode, h1, h2, h3]
      rw [if_neg (fun hc => hne hc.1), if_pos ⟨trivial, trivial⟩,
        show a / 4 * 4 + (a % 4 * 16 + b / 16) / 16 = a from by omega,
        show (a % 4 * 16 + b / 16) % 16 * 16 + b % 16 * 4 / 4 = b from by omega]
    | a :: b :: c :: rest =>
      have ha : a < 256 := h a (by simp)
      have hb : b < 256 := h b (by simp)
      have hc : c < 256 := h c (by simp)
      have h1 : b64Val (b64Char (a / 4)) = some (a / 4) := b64Val_b64Char _ (by omega)
      have h2 : b64Val (b64Char (a % 4 * 16 + b / 16)) = some (a % 4 * 16 + b / 16) :=
        b64Val_b64Char _ (by omega)
      have h3 : b64Val (b64Char (b % 16 * 4 + c / 64)) = some (b % 16 * 4 + c / 64) :=
        b64Val_b64Char _ (by omega)
      have h4 : b64Val (b64Char (c % 64)) = some (c % 64) := b64Val_b64Char _ (by omega)
      have hne3 : b64Char (b % 16 * 4 + c / 64) ≠ '=' := b64Char_ne_eq _ (by omega)
      have hne4 : b64Char (c % 64) ≠ '=' := b64Char_ne_eq _ (by omega)
      have htail : base64Decode (base64Encode rest) = .ok rest := by
        apply ih rest (by simp at hlen; omega)
        intro x hx
        exact h x (by simp [hx])
      show base64Decode (base64Encode (a :: b :: c :: rest)) = _
      have henc : base64Encode (a :: b :: c :: rest)
          = b64Char (a / 4) :: b64Char (a % 4 * 16 + b / 16)
            :: b64Char (b % 16 * 4 + c / 64) :: b64Char (c % 64) :: base64Encode rest := rfl
      rw [henc]
      simp only [base64Decode, h1, h2, h3, h4]
      rw [if_neg (fun hcon => hne3 hcon.1), if_neg (fun hcon => hne4 hcon.1), htail]
      rw [exbind_ok]
      rw [show a / 4 * 4 + (a % 4 * 16 + b / 16) / 16 = a from by omega,
        show (a % 4 * 16 + b / 16) % 16 * 16 + (b % 16 * 4 + c / 64) / 4 = b from by omega,
        show (b % 16 * 4 + c / 64) % 4 * 64 + c % 64 = c from by omega]

theorem base64_roundtrip (bs : List Nat) (h : ∀ x ∈ bs, x < 256) :
    base64Decode (base64Encode bs) = .ok bs :=
  base64_roundtrip_aux bs.length bs le_rfl h

/-- Modelled from the spec: parse an optionally signed decimal integer. -/
def parseIntChars (l : List Char) : Option Int :=
  match l with
  | [] => none
  | c :: rest =>
    if c = '-' then (parseDigits rest).map (fun m => -(m : Int))
    else (parseDigits (c :: rest)).map (fun m => (m : Int))

theorem parseIntChars_intToChars (v : Int) : parseIntChars (intToChars v) = some v := by
  unfold intToChars
  by_cases hv : v < 0
  · rw [if_pos hv]
    have hstep : parseIntChars ('-' :: natToChars v.natAbs)
        = (parseDigits (natToChars v.natAbs)).map (fun m => -(m : Int)) := rfl
    rw [hstep, parseDigits_natToChars]
    show some (-((v.natAbs : Nat) : Int)) = some v
    rw [show -(((v.natAbs : Nat)) : Int) = v from by omega]
  · rw [if_neg hv]
    cases hnc : natToChars v.natAbs with
    | nil => exact absurd hnc (natToChars_ne_nil _)
    | cons c r =>
      have hcd : isASCIIDigit c = true := by
        have := natToChars_all_digits v.natAbs
        rw [hnc] at this
        exact List.all_eq_true.mp this c (List.mem_cons_self c r)
      have hcne : c ≠ '-' := by
        intro he
        subst he
        simp [isASCIIDigit] at hcd
      have hstep : parseIntChars (c :: r)
          = if c = '-' then (parseDigits r).map (fun m => -(m : Int))
            else (parseDigits (c :: r)).map (fun m => (m : Int)) := rfl
      rw [hstep, if_neg hcne, ← hnc, parseDigits_natToChars]
      show some (((v.natAbs : Nat) : Int)) = some v
      rw [show (((v.natAbs : Nat)) : Int) = v from by omega]

/-- Modelled from the spec: decode one wrapper scalar of the targeted kind
from its single bare token. -/
def decodeWrapper (k : WrapperKind) (toks : List Tok) : Except Unit WrapperMsg :=
  match k, toks with
  | .boolK, [Tok.boolTok b] => .ok (.boolValue b)
  | .int32K, [Tok.intNum v] => .ok (.int32Value v)
  | .int64K, [Tok.str s] =>
    match parseIntChars s with
    | some v => .ok (.int64Value v)
    | none => .error ()
  | .uint32K, [Tok.intNum v] => .ok (.uint32Value v.toNat)
  | .uint64K, [Tok.str s] =>
    match parseDigits s with
    | some v => .ok (.uint64Value v)
    | none => .error ()
  | .floatK, [Tok.num f] => .ok (.floatValue f)
  | .doubleK, [Tok.num f] => .ok (.doubleValue f)
  | .stringK, [Tok.str s] => .ok (.stringValue s)
  | .bytesK, [Tok.str s] => (base64Decode s).map .bytesValue
  | _, _ => .error ()

/-- The kind of a wrapper message. -/
def kindOf : WrapperMsg → WrapperKind
  | .boolValue _ => .boolK
  | .int32Value _ => .int32K
  | .int64Value _ => .int64K
  | .uint32Value _ => .uint32K
  | .uint64Value _ => .uint64K
  | .floatValue _ => .floatK
  | .doubleValue _ => .doubleK
  | .stringValue _ => .stringK
  | .bytesValue _ => .bytesK

/-- Validity of a wrapper message: bytes are in range. -/
def validWrapper : WrapperMsg → Bool
  | .bytesValue bs => bs.all (fun x => decide (x < 256))
  | _ => true

theorem wrapper_decode_encode (w : WrapperMsg) (h : validWrapper w = true) :
    decodeWrapper (kindOf w) (marshalWrapperType w) = .ok w := by
  cases w with
  | boolValue b => rfl
  | int32Value v => rfl
  | int64Value v =>
    show (match parseIntChars (intToChars v) with
      | some v2 => Except.ok (WrapperMsg.int64Value v2)
      | none => Except.error ()) = _
    rw [parseIntChars_intToChars]
  | uint32Value v =>
    show Except.ok (WrapperMsg.uint32Value ((Int.ofNat v).toNat)) = _
    rw [show (Int.ofNat v).toNat = v from by simp]
  | uint64Value v =>
    show (match parseDigits (natToChars v) with
      | some v2 => Except.ok (WrapperMsg.uint64Value v2)
      | none => Except.error ()) = _
    rw [parseDigits_natToChars]
  | floatValue f => rfl
  | doubleValue f => rfl
  | stringValue s => rfl
  | bytesValue bs =>
    have hb : ∀ x ∈ bs, x < 256 := by simpa [validWrapper] using h
    show (base64Decode (base64Encode bs)).map WrapperMsg.bytesValue = _
    rw [base64_roundtrip bs hb]
    rfl

/-! ## Value, Struct and ListValue decoding at the token level, modelled
from the specification, and the mutual round trip with the encoder. -/

mutual

/-- Validity of one Value arm: the number arm is finite, nested Value
messages all have an arm set and are valid in turn. -/
def validVK : VKind → Bool
  | .numberValue .nan => false
  | .numberValue .posInf => false
  | .numberValue .negInf => false
  | .numberValue (.finite _) => true
  | .structValue fields => validFields fields
  | .listValue vs => validElems vs
  | .nullValue => true
  | .stringValue _ => true
  | .boolValue _ => true

/-- Validity of struct fields: every entry holds a set, valid Value. -/
def validFields : List (List Char × Option VKind) → Bool
  | [] => true
  | (_, none) :: _ => false
  | (_, some v) :: rest => validVK v && validFields rest

/-- Validity of list elements: every element is a set, valid Value. -/
def validElems : List (Option VKind) → Bool
  | [] => true
  | none :: _ => false
  | some v :: rest => validVK v && validElems rest

end

theorem marshalKnownValue_valid (v : VKind) (h : validVK v = true) :
    marshalKnownValue (some v) = marshalSingularVal v := by
  cases v with
  | numberValue f => cases f <;> simp_all [marshalKnownValue, validVK]
  | nullValue => simp [marshalKnownValue]
  | stringValue s => simp [marshalKnownValue]
  | boolValue b => simp [marshalKnownValue]
  | structValue fields => simp [marshalKnownValue]
  | listValue vs => simp [marshalKnownValue]

mutual

/-- Modelled from the spec: decode one Value by the kind of the next token,
recursing into object members and array elements; the fuel argument bounds
the recursion by the input length. -/
def decodeVK (fuel : Nat) (toks : List Tok) : Except Unit (VKind × List Tok) :=
  match fuel, toks with
  | 0, _ => .error ()
  | _ + 1, [] => .error ()
  | f + 1, t :: rest =>
    match t with
    | .nullTok => .ok (.nullValue, rest)
    | .num v => .ok (.numberValue v, rest)
    | .str s => .ok (.stringValue s, rest)
    | .boolTok b => .ok (.boolValue b, rest)
    | .objStart =>
      match decodeFieldsVK f rest with
      | .ok (fields, rest2) => .ok (.structValue fields, rest2)
      | .error _ => .error ()
    | .arrStart =>
      match decodeElemsVK f rest with
      | .ok (vs, rest2) => .ok (.listValue vs, rest2)
      | .error _ => .error ()
    | _ => .error ()

/-- Modelled from the spec: decode struct members up to the closing token,
setting the arm of every member value. -/
def decodeFieldsVK (fuel : Nat) (toks : List Tok) :
    Except Unit (List (List Char × Option VKind) × List Tok) :=
  match fuel, toks with
  | 0, _ => .error ()
  | _ + 1, Tok.objEnd :: rest => .ok ([], rest)
  | f + 1, Tok.name key :: rest =>
    match decodeVK f rest with
    | .ok (v, rest2) =>
      match decodeFieldsVK f rest2 with
      | .ok (fs, rest3) => .ok ((key, some v) :: fs, rest3)
      | .error _ => .error ()
    | .error _ => .error ()
  | _, _ => .error ()

/-- Modelled from the spec: decode array elements up to the closing token. -/
def decodeElemsVK (fuel : Nat) (toks : List Tok) :
    Except Unit (List (Option VKind) × List Tok) :=
  match fuel, toks with
  | 0, _ => .error ()
  | f + 1, t :: rest =>
    if t = Tok.arrEnd then .ok ([], rest)
    else
      match decodeVK f (t :: rest) with
      | .ok (v, rest2) =>
        match decodeElemsVK f rest2 with
        | .ok (vs, rest3) => .ok (some v :: vs, rest3)
        | .error _ => .error ()
      | .error _ => .error ()
  | _ + 1, [] => .error ()

end

theorem vk_roundtrip_all (k : Nat) :
    (∀ v : VKind, sizeOf v ≤ k → validVK v = true →
      ∃ t0 ts2, marshalSingularVal v = .ok (t0 :: ts2) ∧ t0 ≠ Tok.arrEnd ∧
        ∀ fuel rest, ts2.length < fuel →
          decodeVK fuel (t0 :: (ts2 ++ rest)) = .ok (v, rest))
    ∧ (∀ fs : List (List Char × Option VKind), sizeOf fs ≤ k → validFields fs = true →
      ∃ ts, marshalFieldsV fs = .ok ts ∧ ∀ fuel rest, ts.length < fuel →
        decodeFieldsVK fuel (ts ++ (Tok.objEnd :: rest)) = .ok (fs, rest))
    ∧ (∀ es : List (Option VKind), sizeOf es ≤ k → validElems es = true →
      ∃ ts, marshalElemsV es = .ok ts ∧ ∀ fuel rest, ts.length < fuel →
        decodeElemsVK fuel (ts ++ (Tok.arrEnd :: rest)) = .ok (es, rest)) := by
  induction k using Nat.strong_induction_on with
  | _ k ih =>
    refine ⟨?_, ?_, ?_⟩
    · intro v hsz hvalid
      cases v with
      | nullValue =>
        refine ⟨Tok.nullTok, [], by simp [marshalSingularVal], by simp, ?_⟩
        intro fuel rest hfuel
        match fuel, hfuel with
        | f + 1, _ => simp [decodeVK]
      | numberValue fv =>
        refine ⟨Tok.num fv, [], by simp [marshalSingularVal], by simp, ?_⟩
        intro fuel rest hfuel
        match fuel, hfuel with
        | f + 1, _ => simp [decodeVK]
      | stringValue s =>
        refine ⟨Tok.str s, [], by simp [marshalSingularVal], by simp, ?_⟩
        intro fuel rest hfuel
        match fuel, hfuel with
        | f + 1, _ => simp [decodeVK]
      | boolValue b =>
        refine ⟨Tok.boolTok b, [], by simp [marshalSingularVal], by simp, ?_⟩
        intro fuel rest hfuel
        match fuel, hfuel with
        | f + 1, _ => simp [decodeVK]
      | structValue fields =>
        have hvf : validFields fields = true := by simpa [validVK] using hvalid
        have hk : 0 < k := by
          have : 0 < sizeOf (VKind.structValue fields) := by simp_arith
          omega
        have hszf : sizeOf fields ≤ k - 1 := by
          have : sizeOf (VKind.structValue fields) = 1 + sizeOf fields := by simp_arith
          omega
        obtain ⟨its, hmf, hdf⟩ := (ih (k - 1) (by omega)).2.1 fields hszf hvf
        refine ⟨Tok.objStart, its ++ [Tok.objEnd], ?_, by simp, ?_⟩
        · simp [marshalSingularVal, hmf, exbind_ok]
        · intro fuel rest hfuel
          cases fuel with
          | zero => exact absurd hfuel (by omega)
          | succ f =>
            have hassoc : (its ++ [Tok.objEnd]) ++ rest = its ++ (Tok.objEnd :: rest) := by
              simp
            rw [hassoc]
            have hlen : its.length < f := by
              simp at hfuel
              omega
            simp [decodeVK, hdf f rest hlen]
      | listValue vs =>
        have hve : validElems vs = true := by simpa [validVK] using hvalid
        have hk : 0 < k := by
          have : 0 < sizeOf (VKind.listValue vs) := by simp_arith
          omega
        have hsze : sizeOf vs ≤ k - 1 := by
          have : sizeOf (VKind.listValue vs) = 1 + sizeOf vs := by simp_arith
          omega
        obtain ⟨its, hme, hde⟩ := (ih (k - 1) (by omega)).2.2 vs hsze hve
        refine ⟨Tok.arrStart, its ++ [Tok.arrEnd], ?_, by simp, ?_⟩
        · simp [marshalSingularVal, hme, exbind_ok]
        · intro fuel rest hfuel
          cases fuel with
          | zero => exact absurd hfuel (by omega)
          | succ f =>
            have hassoc : (its ++ [Tok.arrEnd]) ++ rest = its ++ (Tok.arrEnd :: rest) := by
              simp
            rw [hassoc]
            have hlen : its.length < f := by
              simp at hfuel
              omega
            simp [decodeVK, hde f rest hlen]
    · intro fs hsz hvalid
      match fs with
      | [] =>
        refine ⟨[], by simp [marshalFieldsV], ?_⟩
        intro fuel rest hfuel
        match fuel, hfuel with
        | f + 1, _ => simp [decodeFieldsVK]
      | (key, none) :: fs2 => simp [validFields] at hvalid
      | (key, some v) :: fs2 =>
        have hv : validVK v = true ∧ validFields fs2 = true := by
          simpa [validFields, Bool.and_eq_true] using hvalid
        have hk : 0 < k := by
          have : 0 < sizeOf ((key, some v) :: fs2) := by simp_arith
          omega
        have hszv : sizeOf v ≤ k - 1 := by
          have : sizeOf v < sizeOf ((key, some v) :: fs2) := by
            simp only [List.cons.sizeOf_spec, Prod.mk.sizeOf_spec, Option.some.sizeOf_spec]
            omega
          omega
        have hszf2 : sizeOf fs2 ≤ k - 1 := by
          have : sizeOf fs2 < sizeOf ((key, some v) :: fs2) := by
            simp only [List.cons.sizeOf_spec, Prod.mk.sizeOf_spec, Option.some.sizeOf_spec]
            omega
          omega
        obtain ⟨t0, ts2, hmv, ht0, hdv⟩ := (ih (k - 1) (by omega)).1 v hszv hv.1
        obtain ⟨fts, hmf2, hdf2⟩ := (ih (k - 1) (by omega)).2.1 fs2 hszf2 hv.2
        refine ⟨Tok.name key :: (t0 :: ts2 ++ fts), ?_, ?_⟩
        · simp [marshalFieldsV, marshalKnownValue_valid v hv.1, hmv, hmf2, exbind_ok]
        · intro fuel rest hfuel
          cases fuel with
          | zero => exact absurd hfuel (by omega)
          | succ f =>
            have hassoc : (Tok.name key :: (t0 :: ts2 ++ fts)) ++ (Tok.objEnd :: rest)
                = Tok.name key :: (t0 :: (ts2 ++ (fts ++ (Tok.objEnd :: rest)))) := by
              simp
            rw [hassoc]
            have hlenv : ts2.length < f := by
              simp at hfuel
              omega
            have hlenf : fts.length < f := by
              simp at hfuel
              omega
            simp [decodeFieldsVK, hdv f (fts ++ (Tok.objEnd :: rest)) hlenv,
              hdf2 f rest hlenf]
    · intro es hsz hvalid
      match es with
      | [] =>
        refine ⟨[], by simp [marshalElemsV], ?_⟩
        intro fuel rest hfuel
        match fuel, hfuel with
        | f + 1, _ => simp [decodeElemsVK]
      | none :: es2 => simp [validElems] at hvalid
      | some v :: es2 =>
        have hv : validVK v = true ∧ validElems es2 = true := by
          simpa [validElems, Bool.and_eq_true] using hvalid
        have hk : 0 < k := by
          have : 0 < sizeOf (some v :: es2) := by simp_arith
          omega
        have hszv : sizeOf v ≤ k - 1 := by
          have : sizeOf v < sizeOf (some v :: es2) := by
            simp only [List.cons.sizeOf_spec, Option.some.sizeOf_spec]
            omega
          omega
        have hsze2 : sizeOf es2 ≤ k - 1 := by
          have : sizeOf es2 < sizeOf (some v :: es2) := by
            simp only [List.cons.sizeOf_spec, Option.some.sizeOf_spec]
            omega
          omega
        obtain ⟨t0, ts2, hmv, ht0, hdv⟩ := (ih (k - 1) (by omega)).1 v hszv hv.1
        obtain ⟨ets, hme2, hde2⟩ := (ih (k - 1) (by omega)).2.2 es2 hsze2 hv.2
        refine ⟨t0 :: ts2 ++ ets, ?_, ?_⟩
        · simp [marshalElemsV, marshalKnownValue_valid v hv.1, hmv, hme2, exbind_ok]
        · intro fuel rest hfuel
          cases fuel with
          | zero => exact absurd hfuel (by omega)
          | succ f =>
            have hassoc : (t0 :: ts2 ++ ets) ++ (Tok.arrEnd :: rest)
                = t0 :: (ts2 ++ (ets ++ (Tok.arrEnd :: rest))) := by
              simp
            rw [hassoc]
            have hlenv : ts2.length < f := by
              simp at hfuel
              omega
            have hlene : ets.length < f := by
              simp at hfuel
              omega
            have hstep : decodeElemsVK (f + 1) (t0 :: (ts2 ++ (ets ++ (Tok.arrEnd :: rest))))
                = (match decodeVK f (t0 :: (ts2 ++ (ets ++ (Tok.arrEnd :: rest)))) with
                  | .ok (v2, rest2) =>
                    match decodeElemsVK f rest2 with
                    | .ok (vs, rest3) => .ok (some v2 :: vs, rest3)
                    | .error _ => .error ()
                  | .error _ => .error ()) := by
              simp [decodeElemsVK, ht0]
            rw [hstep, hdv f (ets ++ (Tok.arrEnd :: rest)) hlenv]
            simp [hde2 f rest hlene]

/-- Modelled from the spec: decode a Struct as one JSON object whose members
are the fields, consuming the whole input. -/
def decodeStructToks (toks : List Tok) : Except Unit (List (List Char × Option VKind)) :=
  match toks with
  | Tok.objStart :: rest =>
    match decodeFieldsVK (rest.length + 1) rest with
    | .ok (fields, []) => .ok fields
    | _ => .error ()
  | _ => .error ()

/-- Modelled from the spec: decode a ListValue as one JSON array, consuming
the whole input. -/
def decodeListToks (toks : List Tok) : Except Unit (List (Option VKind)) :=
  match toks with
  | Tok.arrStart :: rest =>
    match decodeElemsVK (rest.length + 1) rest with
    | .ok (vs, []) => .ok vs
    | _ => .error ()
  | _ => .error ()

/-- Modelled from the spec: decode a Value as one JSON value, consuming the
whole input and setting the decoded oneof arm. -/
def decodeValueToks (toks : List Tok) : Except Unit (Option VKind) :=
  match decodeVK toks.length toks with
  | .ok (v, []) => .ok (some v)
  | _ => .error ()

/-- Modelled from the spec: decode an Empty as exactly the empty object. -/
def decodeEmpty (toks : List Tok) : Except Unit Unit :=
  match toks with
  | [Tok.objStart, Tok.objEnd] => .ok ()
  | _ => .error ()

theorem struct_decode_encode (fs : List (List Char × Option VKind))
    (h : validFields fs = true) :
    ∃ toks, marshalStruct fs = .ok toks ∧ decodeStructToks toks = .ok fs := by
  obtain ⟨its, hm, hd⟩ := (vk_roundtrip_all (sizeOf fs)).2.1 fs le_rfl h
  refine ⟨Tok.objStart :: (its ++ [Tok.objEnd]), ?_, ?_⟩
  · simp [marshalStruct, hm, exbind_ok]
  · have hde := hd ((its ++ [Tok.objEnd]).length + 1) [] (by simp; omega)
    simp only [decodeStructToks]
    rw [hde]

theorem listvalue_decode_encode (vs : List (Option VKind))
    (h : validElems vs = true) :
    ∃ toks, marshalListValue vs = .ok toks ∧ decodeListToks toks = .ok vs := by
  obtain ⟨its, hm, hd⟩ := (vk_roundtrip_all (sizeOf vs)).2.2 vs le_rfl h
  refine ⟨Tok.arrStart :: (its ++ [Tok.arrEnd]), ?_, ?_⟩
  · simp [marshalListValue, hm, exbind_ok]
  · have hde := hd ((its ++ [Tok.arrEnd]).length + 1) [] (by simp; omega)
    simp only [decodeListToks]
    rw [hde]

theorem value_decode_encode (v : VKind) (h : validVK v = true) :
    ∃ toks, marshalKnownValue (some v) = .ok toks
      ∧ decodeValueToks toks = .ok (some v) := by
  obtain ⟨t0, ts2, hm, ht0, hd⟩ := (vk_roundtrip_all (sizeOf v)).1 v le_rfl h
  refine ⟨t0 :: ts2, ?_, ?_⟩
  · rw [marshalKnownValue_valid v h, hm]
  · have hde := hd (t0 :: ts2).length [] (by simp)
    rw [List.append_nil] at hde
    simp only [decodeValueToks]
    rw [hde]

theorem empty_decode_encode :
    decodeEmpty marshalEmpty = .ok () := rfl

/-! ## Field mask decoding, modelled from the specification, and its round
trip against the encoder. -/

theorem splitOn_ne_nil (sep : Char) (l : List Char) : splitOn sep l ≠ [] := by
  cases l with
  | nil => simp [splitOn]
  | cons c rest =>
    simp only [splitOn]
    cases hs : splitOn sep rest with
    | nil => simp
    | cons h t =>
      by_cases hc : (c == sep) = true
      · simp [hc]
      · simp [hc]

theorem splitOn_cons_head (sep c : Char) (rest : List Char) (hc : (c == sep) = false)
    (h : List Char) (t : List (List Char)) (hrest : splitOn sep rest = h :: t) :
    splitOn sep (c :: rest) = (c :: h) :: t := by
  simp [splitOn, hrest, hc]

theorem splitOn_cons_sep (sep : Char) (rest : List Char) :
    splitOn sep (sep :: rest) = [] :: splitOn sep rest := by
  simp only [splitOn]
  cases hs : splitOn sep rest with
  | nil => exact absurd hs (splitOn_ne_nil sep rest)
  | cons h t => simp

theorem splitOn_nosep (sep : Char) (u : List Char) (hu : sep ∉ u) :
    splitOn sep u = [u] := by
  induction u with
  | nil => rfl
  | cons c rest ih =>
    have hc : (c == sep) = false := by
      simp only [beq_eq_false_iff_ne, ne_eq]
      intro he
      exact hu (he ▸ List.mem_cons_self c rest)
    have hrest : sep ∉ rest := fun hm => hu (List.mem_cons_of_mem c hm)
    exact splitOn_cons_head sep c rest hc rest [] (ih hrest)

theorem splitOn_append_sep (sep : Char) (u v : List Char) (hu : sep ∉ u) :
    splitOn sep (u ++ sep :: v) = u :: splitOn sep v := by
  induction u with
  | nil => simpa using splitOn_cons_sep sep v
  | cons c rest ih =>
    have hc : (c == sep) = false := by
      simp only [beq_eq_false_iff_ne, ne_eq]
      intro he
      exact hu (he ▸ List.mem_cons_self c rest)
    have hrest : sep ∉ rest := fun hm => hu (List.mem_cons_of_mem c hm)
    exact splitOn_cons_head sep c (rest ++ sep :: v) hc rest (splitOn sep v) (ih hrest)

theorem splitOn_joinComma : ∀ (cs : List (List Char)), cs ≠ [] →
    (∀ c ∈ cs, (',' : Char) ∉ c) → splitOn ',' (joinComma cs) = cs := by
  intro cs
  induction cs with
  | nil => intro hne _; exact absurd rfl hne
  | cons c rest ih =>
    intro _ h
    cases rest with
    | nil =>
      have hj : joinComma [c] = c := by simp [joinComma]
      rw [hj]
      exact splitOn_nosep ',' c (h c (List.mem_cons_self c []))
    | cons c2 rest2 =>
      have hj : joinComma (c :: c2 :: rest2) = c ++ ',' :: joinComma (c2 :: rest2) := by
        simp [joinComma]
      rw [hj, splitOn_append_sep ',' c _ (h c (List.mem_cons_self _ _)),
        ih (by simp) (fun q hq => h q (List.mem_cons_of_mem c hq))]

theorem splitOn_mem (sep : Char) : ∀ (l : List Char) (x : Char), x ∈ l →
    x = sep ∨ ∃ seg, seg ∈ splitOn sep l ∧ x ∈ seg := by
  intro l
  induction l with
  | nil => intro x hx; simp at hx
  | cons c rest ih =>
    intro x hx
    by_cases hc : (c == sep) = true
    · have hceq : c = sep := by simpa using hc
      rcases List.mem_cons.mp hx with rfl | hx2
      · exact Or.inl hceq
      · rcases ih x hx2 with h | ⟨seg, hseg, hxs⟩
        · exact Or.inl h
        · refine Or.inr ⟨seg, ?_, hxs⟩
          rw [hceq, splitOn_cons_sep]
          exact List.mem_cons_of_mem [] hseg
    · cases hs : splitOn sep rest with
      | nil => exact absurd hs (splitOn_ne_nil sep rest)
      | cons hseg t =>
        have hrw : splitOn sep (c :: rest) = (c :: hseg) :: t :=
          splitOn_cons_head sep c rest (by simpa using hc) hseg t hs
        rcases List.mem_cons.mp hx with rfl | hx2
        · exact Or.inr ⟨x :: hseg, by rw [hrw]; exact List.mem_cons_self _ _,
            List.mem_cons_self _ _⟩
        · rcases ih x hx2 with h | ⟨seg, hsegm, hxs⟩
          · exact Or.inl h
          · rw [hs] at hsegm
            rcases List.mem_cons.mp hsegm with rfl | hsegt
            · exact Or.inr ⟨c :: seg, by rw [hrw]; exact List.mem_cons_self _ _,
                List.mem_cons_of_mem c hxs⟩
            · exact Or.inr ⟨seg, by rw [hrw]; exact List.mem_cons_of_mem _ hsegt, hxs⟩

theorem validFullName_chars (p : List Char) (hv : validFullName p = true) :
    ∀ x ∈ p, isIdentChar x = true ∨ x = '.' := by
  intro x hx
  rcases splitOn_mem '.' p x hx with h | ⟨seg, hseg, hxs⟩
  · exact Or.inr h
  · left
    have hv2 : ((splitOn '.' p).all validName) = true := hv
    have hvn : validName seg = true := List.all_eq_true.mp hv2 seg hseg
    cases seg with
    | nil => simp at hxs
    | cons c0 r0 =>
      simp only [validName, Bool.and_eq_true] at hvn
      rcases List.mem_cons.mp hxs with rfl | hx2
      · simp [isIdentChar, hvn.1]
      · exact List.all_eq_true.mp hvn.2 x hx2

theorem camelRef_mem_aux : ∀ n (s : List Char), s.length ≤ n → ∀ x ∈ camelRef s,
    x ∈ s ∨ ∃ d, d ∈ s ∧ isASCIILower d = true ∧ x = upChar d := by
  intro n
  induction n with
  | zero =>
    intro s hs
    have : s = [] := List.length_eq_zero.mp (by omega)
    subst this
    simp [camelRef]
  | succ n ih =>
    intro s hs x hx
    match s with
    | [] => simp [camelRef] at hx
    | c :: rest =>
      by_cases hc : c = '_'
      · subst hc
        match rest with
        | [] => simp [camelRef] at hx
        | d :: rest2 =>
          by_cases hl : isASCIILower d
          · rw [camelRef_und_lower d rest2 hl] at hx
            rcases List.mem_cons.mp hx with rfl | hx2
            · exact Or.inr ⟨d, List.mem_cons_of_mem '_' (List.mem_cons_self d rest2),
                hl, rfl⟩
            · have hlen : rest2.length ≤ n := by
                simp only [List.length_cons] at hs
                omega
              rcases ih rest2 hlen x hx2 with h | ⟨d2, hd2, hl2, he2⟩
              · exact Or.inl (List.mem_cons_of_mem '_' (List.mem_cons_of_mem d h))
              · exact Or.inr ⟨d2, List.mem_cons_of_mem '_' (List.mem_cons_of_mem d hd2),
                  hl2, he2⟩
          · rw [camelRef_und_other d rest2 (by simp [hl])] at hx
            have hlen : (d :: rest2).length ≤ n := by
              simp only [List.length_cons] at hs ⊢
              omega
            rcases ih (d :: rest2) hlen x hx with h | ⟨d2, hd2, hl2, he2⟩
            · exact Or.inl (List.mem_cons_of_mem '_' h)
            · exact Or.inr ⟨d2, List.mem_cons_of_mem '_' hd2, hl2, he2⟩
      · rw [camelRef_cons_ne c rest hc] at hx
        rcases List.mem_cons.mp hx with rfl | hx2
        · exact Or.inl (List.mem_cons_self _ _)
        · have hlen : rest.length ≤ n := by
            simp only [List.length_cons] at hs
            omega
          rcases ih rest hlen x hx2 with h | ⟨d2, hd2, hl2, he2⟩
          · exact Or.inl (List.mem_cons_of_mem c h)
          · exact Or.inr ⟨d2, List.mem_cons_of_mem c hd2, hl2, he2⟩

theorem comma_notin_camelRef (p : List Char) (h : (',' : Char) ∉ p) :
    (',' : Char) ∉ camelRef p := by
  intro hmem
  rcases camelRef_mem_aux p.length p le_rfl ',' hmem with h1 | ⟨d, hd, hl, he⟩
  · exact h h1
  · have hu := upChar_toNat d hl
    have hdl : 97 ≤ d.toNat ∧ d.toNat ≤ 122 := by
      have := hl
      simp only [isASCIILower, Bool.and_eq_true, decide_eq_true_eq] at this
      exact this
    have hct : (',' : Char).toNat = (upChar d).toNat := congrArg Char.toNat he
    rw [hu] at hct
    have h44 : (',' : Char).toNat = 44 := by decide
    omega

theorem pathOk_comma (p : List Char) (hp : pathOk p) :
    (',' : Char) ∉ JSONCamelCase p := by
  rw [JSONCamelCase_eq_camelRef]
  apply comma_notin_camelRef
  intro hmem
  rcases validFullName_chars p hp.1 ',' hmem with h | h
  · exact absurd h (by decide)
  · exact absurd h (by decide)

theorem pathOk_camel_ne_nil (p : List Char) (hp : pathOk p) : JSONCamelCase p ≠ [] := by
  intro he
  have h2 := hp.2
  rw [he] at h2
  have hpnil : p = [] := by simpa [JSONSnakeCase] using h2.symm
  rw [hpnil] at hp
  exact absurd hp.1 (by decide)

theorem map_snake_camel (l : List (List Char)) (hl : ∀ q ∈ l, pathOk q) :
    (l.map JSONCamelCase).map JSONSnakeCase = l := by
  induction l with
  | nil => rfl
  | cons a t ih =>
    simp only [List.map_cons]
    rw [(hl a (List.mem_cons_self _ _)).2,
      ih (fun q hq => hl q (List.mem_cons_of_mem a hq))]

/-- Modelled from the spec: the field mask decoder expects one JSON string
token, splits it on the comma separator and converts every camel path back
to snake case; the empty string decodes to the empty mask. -/
def decodeFieldMask (toks : List Tok) : Except Unit (List (List Char)) :=
  match toks with
  | [Tok.str s] =>
    if s = [] then .ok []
    else .ok ((splitOn ',' s).map JSONSnakeCase)
  | _ => .error ()

theorem fieldmask_decode_encode (paths : List (List Char)) (h : ∀ p ∈ paths, pathOk p) :
    ∃ toks, marshalFieldMask paths = .ok toks ∧ decodeFieldMask toks = .ok paths := by
  refine ⟨[Tok.str (joinComma (paths.map JSONCamelCase))], ?_, ?_⟩
  · unfold marshalFieldMask
    rw [marshalFieldMaskAux_ok paths h]
    rfl
  · cases paths with
    | nil => rfl
    | cons p rest =>
      have hpok : pathOk p := h p (List.mem_cons_self _ _)
      have hcnnil : joinComma ((p :: rest).map JSONCamelCase) ≠ [] := by
        cases rest with
        | nil =>
          simp only [List.map_cons, List.map_nil]
          have hj : joinComma [JSONCamelCase p] = JSONCamelCase p := by simp [joinComma]
          rw [hj]
          exact pathOk_camel_ne_nil p hpok
        | cons p2 r2 =>
          simp only [List.map_cons]
          have hj : joinComma (JSONCamelCase p :: JSONCamelCase p2 :: r2.map JSONCamelCase)
              = JSONCamelCase p ++ ',' :: joinComma (JSONCamelCase p2 :: r2.map JSONCamelCase) := by
            simp [joinComma]
          rw [hj]
          simp
      have hsplit : splitOn ',' (joinComma ((p :: rest).map JSONCamelCase))
          = (p :: rest).map JSONCamelCase := by
        apply splitOn_joinComma _ (by simp)
        intro c hc
        obtain ⟨q, hq, rfl⟩ := List.mem_map.mp hc
        exact pathOk_comma q (h q hq)
      simp only [decodeFieldMask]
      rw [if_neg hcnnil, hsplit, map_snake_camel _ h]

/-! ## Any decoding, modelled from the specification, the decode dispatcher
over the nine well-known shapes, and the full round trip. -/

/-- Modelled from the spec: decode an Any envelope.  The empty object is the
unset envelope; otherwise the at-type member names the inner type, whose
body sits either under a value member (well-known inner type) or inline, and
is handed back to the resolver collaborator for re-serialization. -/
def decodeAny (C : AnyCodecCollab) (toks : List Tok) : Except Unit AnyMsg :=
  match toks with
  | [Tok.objStart, Tok.objEnd] => .ok ⟨[], []⟩
  | Tok.objStart :: Tok.name a :: Tok.str url :: rest =>
    if a = atTypeName then
      if C.isWK url then
        match rest with
        | Tok.name vf :: body =>
          if vf = valueFieldName then
            if body.getLast? = some Tok.objEnd then
              match C.decInner url (.wk body.dropLast) with
              | .ok bytes => .ok ⟨url, bytes⟩
              | .error _ => .error ()
            else .error ()
          else .error ()
        | _ => .error ()
      else
        if rest.getLast? = some Tok.objEnd then
          match C.decInner url (.generic rest.dropLast) with
          | .ok bytes => .ok ⟨url, bytes⟩
          | .error _ => .error ()
        else .error ()
    else .error ()
  | _ => .error ()

/-- Coherence of the Any collaborators: a payload the resolver marshals is
re-serialized back to the same bytes, and the well-known classification of
the type URL agrees with the kind of body the marshaler produced. -/
def anyCollabCoherent (C : AnyCodecCollab) : Prop :=
  ∀ url bytes body, C.marshalInner url bytes = .ok body →
    C.decInner url body = .ok bytes ∧
      (match body with
        | .wk _ => C.isWK url = true
        | .generic _ => C.isWK url = false)

/-- Validity of an Any envelope for the round trip: a set payload has a type
URL, and the resolver can marshal the payload. -/
def validAny (C : AnyCodecCollab) (m : AnyMsg) : Prop :=
  (m.typeUrl = [] → m.value = [])
    ∧ (m.typeUrl ≠ [] → ∃ body, C.marshalInner m.typeUrl m.value = .ok body)

theorem any_decode_encode (C : AnyCodecCollab) (hC : anyCollabCoherent C)
    (m : AnyMsg) (hm : validAny C m) :
    ∃ toks, marshalAny C m = .ok toks ∧ decodeAny C toks = .ok m := by
  obtain ⟨u, v⟩ := m
  by_cases hurl : u = []
  · subst hurl
    have hv : v = [] := hm.1 rfl
    subst hv
    exact ⟨[Tok.objStart, Tok.objEnd], by simp [marshalAny], rfl⟩
  · obtain ⟨body, hbody⟩ := hm.2 hurl
    obtain ⟨hdec, hkind⟩ := hC u v body hbody
    cases body with
    | wk toks =>
      refine ⟨Tok.objStart :: Tok.name atTypeName :: Tok.str u
        :: Tok.name valueFieldName :: (toks ++ [Tok.objEnd]), ?_, ?_⟩
      · simp [marshalAny, hurl, hbody]
      · have hkind2 : C.isWK u = true := hkind
        simp [decodeAny, hkind2, hdec, List.getLast?_concat, List.dropLast_concat]
    | generic fields =>
      refine ⟨Tok.objStart :: Tok.name atTypeName :: Tok.str u
        :: (fields ++ [Tok.objEnd]), ?_, ?_⟩
      · simp [marshalAny, hurl, hbody]
      · have hkind2 : C.isWK u = false := hkind
        simp [decodeAny, hkind2, hdec, List.getLast?_concat, List.dropLast_concat]

/-- The well-known shape of a message, the decode target its type selects. -/
def shapeOf : WKMsg → WKShape
  | .anyMsg _ => .anySh
  | .timestampMsg _ _ => .timestampSh
  | .durationMsg _ _ => .durationSh
  | .wrapperMsg w => .wrapperSh (kindOf w)
  | .structMsg _ => .structSh
  | .listValueMsg _ => .listValueSh
  | .valueMsg _ => .valueSh
  | .fieldMaskMsg _ => .fieldMaskSh
  | .emptyMsg => .emptySh

/-- Modelled from the spec: the decode dispatcher over the nine well-known
shapes, the inverse of the marshal dispatcher. -/
def decodeWellKnown (C : AnyCodecCollab) (sh : WKShape) (toks : List Tok) :
    Except Unit WKMsg :=
  match sh with
  | .anySh => (decodeAny C toks).map .anyMsg
  | .timestampSh => (decodeTimestamp toks).map (fun p => .timestampMsg p.1 p.2)
  | .durationSh => (decodeDuration toks).map (fun p => .durationMsg p.1 p.2)
  | .wrapperSh k => (decodeWrapper k toks).map .wrapperMsg
  | .structSh => (decodeStructToks toks).map .structMsg
  | .listValueSh => (decodeListToks toks).map .listValueMsg
  | .valueSh => (decodeValueToks toks).map .valueMsg
  | .fieldMaskSh => (decodeFieldMask toks).map .fieldMaskMsg
  | .emptySh => (decodeEmpty toks).map (fun _ => .emptyMsg)

/-- The declared invariants of each well-known shape, under which its encoder
succeeds: the ranges of timestamp and duration, sign agreement of duration,
byte range of the bytes wrapper, set and finite oneof arms of Value trees,
valid reversible field mask paths, and a resolvable Any payload. -/
def validWK (C : AnyCodecCollab) : WKMsg → Prop
  | .anyMsg m => validAny C m
  | .timestampMsg s n =>
    -62135596800 ≤ s ∧ s ≤ 253402300799 ∧ 0 ≤ n ∧ n ≤ 999999999
  | .durationMsg s n =>
    -315576000000 ≤ s ∧ s ≤ 315576000000 ∧ -999999999 ≤ n ∧ n ≤ 999999999
      ∧ ¬((0 < s ∧ n < 0) ∨ (s < 0 ∧ 0 < n))
  | .wrapperMsg w => validWrapper w = true
  | .structMsg fs => validFields fs = true
  | .listValueMsg vs => validElems vs = true
  | .valueMsg v => ∃ v2, v = some v2 ∧ validVK v2 = true
  | .fieldMaskMsg ps => ∀ p ∈ ps, pathOk p
  | .emptyMsg => True

/-- C9: for every well-known shape and every valid message of that shape
within the declared ranges, the encoder succeeds and decoding its token
output at the shape of the message restores the message exactly. -/
theorem c9_wellknown_roundtrip (C : AnyCodecCollab) (hC : anyCollabCoherent C)
    (m : WKMsg) (hm : validWK C m) :
    ∃ toks, marshalWellKnown C m = .ok toks
      ∧ decodeWellKnown C (shapeOf m) toks = .ok m := by
  cases m with
  | anyMsg a =>
    obtain ⟨toks, hmt, hdt⟩ := any_decode_encode C hC a hm
    exact ⟨toks, by simp [marshalWellKnown, hmt, mapErr],
      by simp [decodeWellKnown, shapeOf, hdt, exmap_ok]⟩
  | timestampMsg s n =>
    obtain ⟨toks, hmt, hdt⟩ := timestamp_decode_encode s n
      ⟨hm.1, hm.2.1⟩ ⟨hm.2.2.1, hm.2.2.2⟩
    exact ⟨toks, by simp [marshalWellKnown, hmt, mapErr],
      by simp [decodeWellKnown, shapeOf, hdt, exmap_ok]⟩
  | durationMsg s n =>
    obtain ⟨toks, hmt, hdt⟩ := duration_decode_encode s n
      ⟨hm.1, hm.2.1⟩ ⟨hm.2.2.1, hm.2.2.2.1⟩ hm.2.2.2.2
    exact ⟨toks, by simp [marshalWellKnown, hmt, mapErr],
      by simp [decodeWellKnown, shapeOf, hdt, exmap_ok]⟩
  | wrapperMsg w =>
    exact ⟨marshalWrapperType w, rfl,
      by simp [decodeWellKnown, shapeOf, wrapper_decode_encode w hm, exmap_ok]⟩
  | structMsg fs =>
    obtain ⟨toks, hmt, hdt⟩ := struct_decode_encode fs hm
    exact ⟨toks, by simp [marshalWellKnown, hmt, mapErr],
      by simp [decodeWellKnown, shapeOf, hdt, exmap_ok]⟩
  | listValueMsg vs =>
    obtain ⟨toks, hmt, hdt⟩ := listvalue_decode_encode vs hm
    exact ⟨toks, by simp [marshalWellKnown, hmt, mapErr],
      by simp [decodeWellKnown, shapeOf, hdt, exmap_ok]⟩
  | valueMsg v =>
    obtain ⟨v2, hv2, hval⟩ := hm
    subst hv2
    obtain ⟨toks, hmt, hdt⟩ := value_decode_encode v2 hval
    exact ⟨toks, by simp [marshalWellKnown, hmt, mapErr],
      by simp [decodeWellKnown, shapeOf, hdt, exmap_ok]⟩
  | fieldMaskMsg ps =>
    obtain ⟨toks, hmt, hdt⟩ := fieldmask_decode_encode ps hm
    exact ⟨toks, by simp [marshalWellKnown, hmt, mapErr],
      by simp [decodeWellKnown, shapeOf, hdt, exmap_ok]⟩
  | emptyMsg =>
    exact ⟨marshalEmpty, rfl, by simp [decodeWellKnown, shapeOf, empty_decode_encode, exmap_ok]⟩

theorem c9_wellknown_roundtrip_witness :
    anyCollabCoherent trivialCollab
    ∧ validWK trivialCollab (WKMsg.durationMsg 1 500000000)
    ∧ ∃ toks, marshalWellKnown trivialCollab (WKMsg.durationMsg 1 500000000) = .ok toks
      ∧ decodeWellKnown trivialCollab (shapeOf (WKMsg.durationMsg 1 500000000)) toks
          = .ok (WKMsg.durationMsg 1 500000000) := by
  have hcoh : anyCollabCoherent trivialCollab := by
    intro url bytes body h
    exact absurd h (by simp [trivialCollab])
  exact ⟨hcoh, by norm_num [validWK],
    c9_wellknown_roundtrip trivialCollab hcoh (WKMsg.durationMsg 1 500000000)
      (by norm_num [validWK])⟩

end Jsonpb
